import Mathlib

/-!
# Thomas-Attractor-pop: trail buffer, compositor, palette and integrator

A shallow embedding of the two terminal renderers of the repository:

* `attractor.c`   (namespace `AttractorC`): ring buffer of 4000 points, age-keyed
  compositor, glyph and colour ramps, explicit Euler step, main loop, frame builder;
* `attractor.cpp` (namespace `AttractorCpp`): `ChaosSystem` with a bounded
  push-front trail of 3000 particles and `TerminalRenderer::draw`.

The coordinate type `double` is a type parameter `α`.  The arithmetic operators come
from the usual classes (`+ - * /`, decimal literals), the C library functions `sin`,
`cos`, `pow` and the conversions between `int` and `double` are function parameters.
Taking `α := ℝ` with `Real.sin` gives the programs over exact real arithmetic.
C `int` values are modelled by `Int`; every value that occurs stays far below `2^31`.
-/

set_option autoImplicit false

/-- The struct `Vec3 { double x, y, z; }`, declared identically in both sources. -/
structure Vec3 (α : Type) where
  x : α
  y : α
  z : α
deriving DecidableEq, Repr

/-- The conversion `(int)x` of a `double` in the range of `int`, over exact arithmetic:
the fractional part is discarded (truncation toward zero). -/
def trunc_toward_zero {α : Type} [LinearOrderedField α] [FloorRing α] (x : α) : Int :=
  if 0 ≤ x then ⌊x⌋ else ⌈x⌉

namespace AttractorC

/-- The macro `MAX_POINTS` of attractor.c. -/
def MAX_POINTS : Nat := 4000

/-- The macro `THOMAS_B`. -/
def THOMAS_B {α : Type} [OfScientific α] : α := 0.19

/-- The macro `LORENZ_S`. -/
def LORENZ_S {α : Type} [OfScientific α] : α := 10.0

/-- The macro `LORENZ_R`. -/
def LORENZ_R {α : Type} [OfScientific α] : α := 28.0

/-- The macro `LORENZ_B`. -/
def LORENZ_B {α : Type} [OfScientific α] : α := 2.666

/-- The macro `DT`. -/
def DT {α : Type} [OfScientific α] : α := 0.05

/-- The C operator `%` on `int`: the remainder of the division truncated toward zero. -/
def cmod (a b : Int) : Int := Int.tmod a b

/-- The function `get_glow_color(age, &r, &g, &b)`; the result is the triple `(r, g, b)`. -/
def get_glow_color (age : Int) : Int × Int × Int :=
  if age < 100 then (255, 255, 255)
  else if age < 500 then (100, 220, 255)
  else if age < 1500 then (0, 120, 220)
  else if age < 3000 then (0, 60, 130)
  else (40, 40, 60)

/-- The local string `chars` of `get_density_char`. -/
def chars : List Char := "@#*+:. ".toList

/-- The function `get_density_char(age)`: `chars[k]` for the first threshold that `age` is below. -/
def get_density_char (age : Int) : Char :=
  if age < 100 then chars.getD 0 ' '
  else if age < 400 then chars.getD 1 ' '
  else if age < 1000 then chars.getD 2 ' '
  else if age < 2000 then chars.getD 3 ' '
  else if age < 3000 then chars.getD 4 ' '
  else chars.getD 5 ' '

/-- The globals `trail` and `head`.  The array `Vec3 trail[MAX_POINTS]` is a map from the
`int` index to the slot; the slots of the array are those with index in `[0, MAX_POINTS)`. -/
structure TrailBuf (α : Type) where
  trail : Int → Vec3 α
  head : Int

/-- The array after `memset(trail, 0, sizeof(trail))`: every slot is the zero vector. -/
def zero_trail {α : Type} [Zero α] : Int → Vec3 α := fun _ => ⟨0, 0, 0⟩

/-- Lines 150-151 of `main`: `trail[head] = p; head = (head + 1) % MAX_POINTS;`. -/
def push {α : Type} (r : TrailBuf α) (p : Vec3 α) : TrailBuf α :=
  { trail := Function.update r.trail r.head p
    head := cmod (r.head + 1) MAX_POINTS }

/-- The pushes of the points `ps`, first element first. -/
def push_all {α : Type} (r : TrailBuf α) (ps : List (Vec3 α)) : TrailBuf α :=
  ps.foldl push r

/-- Line 161 of `main`: `idx = (head - 1 - i + MAX_POINTS) % MAX_POINTS`, the slot of age `i`. -/
def read_idx (head i : Int) : Int :=
  cmod (head - 1 - i + MAX_POINTS) MAX_POINTS

/-- The per-frame buffers `out_chars[height][width]` and `out_ages[height][width]`, indexed
`[y][x]`.  The cells of the arrays are those with `0 ≤ y < height` and `0 ≤ x < width`. -/
structure Buffers where
  out_chars : Int → Int → Char
  out_ages : Int → Int → Int

/-- Step 2 of the main loop: every glyph is a blank and every age is 99999. -/
def clear_buffers : Buffers :=
  { out_chars := fun _ _ => ' '
    out_ages := fun _ _ => 99999 }

/-- One iteration `i` of the render loop (lines 161-173).  The call of `project` is the
parameter `proj`, which returns the pair `(sx, sy)`. -/
def render_point {α : Type} [Zero α] [DecidableEq α] (proj : Vec3 α → Int × Int)
    (width height : Int) (trail : Int → Vec3 α) (head : Int) (b : Buffers) (i : Int) : Buffers :=
  let idx := read_idx head i
  if (trail idx).x = 0 then b
  else
    let sx := (proj (trail idx)).1
    let sy := (proj (trail idx)).2
    if sx ≥ 0 ∧ sx < width ∧ sy ≥ 0 ∧ sy < height then
      if i < b.out_ages sy sx then
        { out_ages := fun y x => if y = sy ∧ x = sx then i else b.out_ages y x
          out_chars := fun y x => if y = sy ∧ x = sx then get_density_char i else b.out_chars y x }
      else b
    else b

/-- The render loop run for `i = 0, ..., n - 1` on the buffers `b`. -/
def render_loop {α : Type} [Zero α] [DecidableEq α] (proj : Vec3 α → Int × Int)
    (width height : Int) (trail : Int → Vec3 α) (head : Int) (b : Buffers) (n : Nat) : Buffers :=
  (List.range n).foldl (fun acc i => render_point proj width height trail head acc (i : Int)) b

/-- Steps 2 and 3 of the main loop: clear the buffers, then
`for (int i = 0; i < MAX_POINTS; i++)` over the trail. -/
def render_trajectory {α : Type} [Zero α] [DecidableEq α] (proj : Vec3 α → Int × Int)
    (width height : Int) (trail : Int → Vec3 α) (head : Int) : Buffers :=
  render_loop proj width height trail head clear_buffers MAX_POINTS

/-- The simulation variables of `main` that the switch and the update act on. -/
structure Sim (α : Type) where
  current_system : Int
  p : Vec3 α
  trail : Int → Vec3 α

/-- The body of `if (frame % 1000 == 0)` (lines 129-131). -/
def switch_system {α : Type} [Zero α] [OfScientific α] (s : Sim α) : Sim α :=
  { current_system := cmod (s.current_system + 1) 2
    p := ⟨0.1, 0.1, 0.1⟩
    trail := zero_trail }

/-- Step 1 of the main loop (lines 135-148): the derivative of the active system and the
explicit Euler update of `p`. -/
def update_math {α : Type} [Add α] [Sub α] [Mul α] [OfScientific α] (sin : α → α)
    (current_system : Int) (p : Vec3 α) : Vec3 α :=
  let d : Vec3 α :=
    if current_system = 0 then
      ⟨sin p.y - THOMAS_B * p.x, sin p.z - THOMAS_B * p.y, sin p.x - THOMAS_B * p.z⟩
    else
      ⟨LORENZ_S * (p.y - p.x), p.x * (LORENZ_R - p.z) - p.y, p.x * p.y - LORENZ_B * p.z⟩
  let h : α := if current_system = 1 then 0.01 else DT
  ⟨p.x + d.x * h, p.y + d.y * h, p.z + d.z * h⟩

/-- The position after `n` iterations of `update_math` with the system unchanged. -/
def iterate_math {α : Type} [Add α] [Sub α] [Mul α] [OfScientific α] (sin : α → α)
    (current_system : Int) (p : Vec3 α) : Nat → Vec3 α
  | 0 => p
  | n + 1 => update_math sin current_system (iterate_math sin current_system p n)

/-- The header line of the frame (lines 181-183): the text that the `sprintf` with the
arguments `%s`, `%s`, `%d` writes. -/
def header_text (current_system frame : Int) : String :=
  " \x1b[1;36m" ++ (if current_system = 0 then "THOMAS" else "LORENZ")
    ++ " STRANGE ATTRACTOR \x1b[0m| Mode: "
    ++ (if current_system = 0 then "sin(y)-bx" else "standard")
    ++ " | Pts: " ++ toString frame ++ "\r\n"

/-- The text written for the cell `out_chars[y][x]` (lines 187-193): a 24-bit colour escape
and the glyph, or a single blank. -/
def cell_text (b : Buffers) (y x : Int) : String :=
  if b.out_chars y x ≠ ' ' then
    "\x1b[38;2;" ++ toString (get_glow_color (b.out_ages y x)).1
      ++ ";" ++ toString (get_glow_color (b.out_ages y x)).2.1
      ++ ";" ++ toString (get_glow_color (b.out_ages y x)).2.2
      ++ "m" ++ String.singleton (b.out_chars y x)
  else " "

/-- The text of row `y` (lines 186-196): the cells `x = 0, ..., width - 1`, then CR LF. -/
def row_text (width : Int) (b : Buffers) (y : Int) : String :=
  (List.range width.toNat).foldl
      (fun (s : String) (x : Nat) => s ++ cell_text b y (x : Int)) "" ++ "\r\n"

/-- Step 4 of the main loop (lines 177-197): cursor home, header line, then the rows
`y = 1, ..., height - 2`.  This is the text in `frame_buf` before the terminating NUL. -/
def build_frame (width height current_system frame : Int) (b : Buffers) : String :=
  (List.range (height - 2).toNat).foldl
    (fun (s : String) (k : Nat) => s ++ row_text width b ((k : Int) + 1))
    ("\x1b[H" ++ header_text current_system frame)

/-- The number of bytes that step 4 writes into `frame_buf`: one per character of the frame
text, and the terminating NUL of line 198. -/
def frame_bytes (width height current_system frame : Int) (b : Buffers) : Nat :=
  (build_frame width height current_system frame b).length + 1

/-- The size of `frame_buf`: the argument `width * height * 64` of `malloc` (line 123). -/
def frame_buf_size (width height : Int) : Int := width * height * 64

/-- The variables of `main` and the globals that the simulation part of the loop body
(lines 126-151) reads and writes: the loop counter `frame`, `current_system`, the
position `p`, the array `trail` and `head`. -/
structure Loop (α : Type) where
  frame : Int
  current_system : Int
  p : Vec3 α
  ring : TrailBuf α

/-- The state on entry of the main loop: `frame = 0`, the initialisers `current_system = 0`,
`p = {0.1, 0, 0}`, `head = 0`, and the zero-initialised global array `trail`. -/
def loop_start {α : Type} [Zero α] [OfScientific α] : Loop α :=
  { frame := 0
    current_system := 0
    p := ⟨0.1, 0, 0⟩
    ring := ⟨zero_trail, 0⟩ }

/-- One iteration of the main loop up to the push (lines 128-151) and the `frame++` that
ends it: the switch when `frame % 1000 == 0`, the Euler update, the push into the ring.
The render pass of the iteration reads the `trail` and `head` of the resulting state. -/
def loop_step {α : Type} [Add α] [Sub α] [Mul α] [Zero α] [OfScientific α] (sin : α → α)
    (s : Loop α) : Loop α :=
  let sim : Sim α :=
    if cmod s.frame 1000 = 0 then switch_system ⟨s.current_system, s.p, s.ring.trail⟩
    else ⟨s.current_system, s.p, s.ring.trail⟩
  let p := update_math sin sim.current_system sim.p
  { frame := s.frame + 1
    current_system := sim.current_system
    p := p
    ring := push ⟨sim.trail, s.ring.head⟩ p }

/-- The state after `n` iterations of the main loop. -/
def main_loop {α : Type} [Add α] [Sub α] [Mul α] [Zero α] [OfScientific α] (sin : α → α) :
    Nat → Loop α
  | 0 => loop_start
  | n + 1 => loop_step sin (main_loop sin n)

/-- The number of pushes made since the last `memset` of the trail, after `n` iterations of
the main loop: the switch runs in the iterations with `frame % 1000 == 0`. -/
def pushes_since_switch (n : Nat) : Nat :=
  if n = 0 then 0 else (n - 1) % 1000 + 1

/-- The real `q` is an odd integer over an odd integer times `2 ^ k`. -/
def odd_over_pow2 (k : Nat) (q : ℝ) : Prop :=
  ∃ m d : Int, Odd m ∧ Odd d ∧ q * ((d : ℝ) * 2 ^ k) = (m : ℝ)

/-- The real `q` is an integer over an odd integer times `2 ^ k`. -/
def int_over_pow2 (k : Nat) (q : ℝ) : Prop :=
  ∃ m d : Int, Odd d ∧ q * ((d : ℝ) * 2 ^ k) = (m : ℝ)

/-- The slot of age `i` is not skipped by the render loop and `proj` sends it to the
cell `(sx, sy)`. -/
def hits {α : Type} [Zero α] (proj : Vec3 α → Int × Int) (trail : Int → Vec3 α) (head : Int)
    (i : Int) (sy sx : Int) : Prop :=
  (trail (read_idx head i)).x ≠ 0 ∧ (proj (trail (read_idx head i))).1 = sx
    ∧ (proj (trail (read_idx head i))).2 = sy

instance {α : Type} [Zero α] [DecidableEq α] (proj : Vec3 α → Int × Int) (trail : Int → Vec3 α)
    (head i sy sx : Int) : Decidable (hits proj trail head i sy sx) := by
  unfold hits
  infer_instance

/-- The cell `(sx, sy)` lies inside the `width × height` grid. -/
def in_grid (width height sy sx : Int) : Prop :=
  sx ≥ 0 ∧ sx < width ∧ sy ≥ 0 ∧ sy < height

instance (width height sy sx : Int) : Decidable (in_grid width height sy sx) := by
  unfold in_grid
  infer_instance

/-- A trail with exactly two written slots, of ages 5 and 50, all other slots zero. -/
def two_point_trail : Int → Vec3 ℚ :=
  fun idx => if idx = read_idx 0 5 ∨ idx = read_idx 0 50 then ⟨1, 0, 0⟩ else ⟨0, 0, 0⟩

end AttractorC

namespace AttractorCpp

/-- The struct `Particle { Vec3 pos; int age; }`. -/
structure Particle (α : Type) where
  pos : Vec3 α
  age : Int
deriving DecidableEq, Repr

/-- The enum `ChaosSystem::Type`. -/
inductive ChaosType where
  | THOMAS
  | LORENZ
  | AIZAWA
deriving DecidableEq, Repr

/-- The private members of the class `ChaosSystem`. -/
structure ChaosSystem (α : Type) where
  type : ChaosType
  p : Vec3 α
  trail : List (Particle α)

namespace ChaosSystem

/-- The method `reset()`: reseed the position and clear the trail (`reserve` keeps it empty). -/
def reset {α : Type} [OfScientific α] (s : ChaosSystem α) : ChaosSystem α :=
  { s with p := ⟨0.1, 0.1, 0.1⟩, trail := [] }

/-- The constructor `ChaosSystem(Type type)`: the member `type` is set, then `reset()` runs on
the default-constructed (empty) trail. -/
def init {α : Type} [OfScientific α] (t : ChaosType) : ChaosSystem α :=
  { type := t, p := ⟨0.1, 0.1, 0.1⟩, trail := [] }

/-- The `switch (type)` of `update`: the derivative `(dx, dy, dz)` at the position `p`. -/
def derivative {α : Type} [Add α] [Sub α] [Mul α] [Div α] [OfScientific α]
    (sin : α → α) (pow : α → α → α) (t : ChaosType) (p : Vec3 α) : Vec3 α :=
  match t with
  | .THOMAS =>
    let b : α := 0.19
    ⟨sin p.y - b * p.x, sin p.z - b * p.y, sin p.x - b * p.z⟩
  | .LORENZ =>
    let s : α := 10.0
    let r : α := 28.0
    let b : α := 8.0 / 3.0
    ⟨s * (p.y - p.x), p.x * (r - p.z) - p.y, p.x * p.y - b * p.z⟩
  | .AIZAWA =>
    let a : α := 0.95
    let b : α := 0.7
    let c : α := 0.6
    let d : α := 3.5
    let e : α := 0.25
    let f : α := 0.1
    ⟨(p.z - b) * p.x - d * p.y,
     d * p.x + (p.z - b) * p.y,
     c + a * p.z - pow p.z 3.0 / 3.0 - (pow p.x 2.0 + pow p.y 2.0) * (1.0 + e * p.z)
       + f * p.z * pow p.x 3.0⟩

/-- The method `update(dt)`: Euler step, insert the new particle with age 0 at the front,
drop the last particle when the size exceeds 3000, then `age++` on every particle. -/
def update {α : Type} [Add α] [Sub α] [Mul α] [Div α] [OfScientific α]
    (sin : α → α) (pow : α → α → α) (s : ChaosSystem α) (dt : α) : ChaosSystem α :=
  let d := derivative sin pow s.type s.p
  let p1 : Vec3 α := ⟨s.p.x + d.x * dt, s.p.y + d.y * dt, s.p.z + d.z * dt⟩
  let np : Particle α := ⟨p1, 0⟩
  let t1 := np :: s.trail
  let t2 := if t1.length > 3000 then t1.dropLast else t1
  let t3 := t2.map (fun q => { q with age := q.age + 1 })
  { s with p := p1, trail := t3 }

/-- The calls `update(dt)` for the step sizes `dts`, first element first. -/
def updates {α : Type} [Add α] [Sub α] [Mul α] [Div α] [OfScientific α]
    (sin : α → α) (pow : α → α → α) (s : ChaosSystem α) (dts : List α) : ChaosSystem α :=
  dts.foldl (update sin pow) s

/-- The accessor `get_trail()`. -/
def get_trail {α : Type} (s : ChaosSystem α) : List (Particle α) := s.trail

/-- The accessor `get_type()`. -/
def get_type {α : Type} (s : ChaosSystem α) : ChaosType := s.type

/-- The method `set_type(t)`: `type = t; reset();`. -/
def set_type {α : Type} [OfScientific α] (s : ChaosSystem α) (t : ChaosType) : ChaosSystem α :=
  reset { s with type := t }

end ChaosSystem

namespace TerminalRenderer

/-- One cursor-positioned write of `draw`: move to row `sy`, column `sx`, select the
foreground colour `(r, g, b)`, print the glyph `c`. -/
structure CellWrite where
  sy : Int
  sx : Int
  r : Int
  g : Int
  b : Int
  c : Char
deriving DecidableEq, Repr

/-- The colour selection of `draw` (lines 158-160), as the triple `(r, g, b)`. -/
def glow_color {α : Type} [Sub α] [Mul α] [Div α] [OfScientific α]
    (ofInt : Int → α) (toInt : α → Int) (age : Int) : Int × Int × Int :=
  if age < 100 then (255, 255, 255)
  else if age < 500 then (60, 220, 255)
  else (0, 50 + toInt (ofInt 200 * (1.0 - ofInt age / 3000.0)), 150)

/-- The glyph selection of `draw` (line 162). -/
def glyph (age : Int) : Char :=
  if age < 50 then '@' else if age < 200 then '#' else if age < 1000 then '*' else '.'

/-- Lines 138-153 of `draw`: rotation and perspective of one point, giving `(sx, sy)`. -/
def screen_pos {α : Type} [Add α] [Sub α] [Mul α] [Div α] [Neg α] [OfScientific α]
    (sin cos : α → α) (ofInt : Int → α) (toInt : α → Int) (width height : Int)
    (t : ChaosType) (angle_x angle_y zoom_pop : α) (pos : Vec3 α) : Int × Int :=
  let x := pos.x
  let y := pos.y
  let z := pos.z
  let tx := x * cos angle_y + z * sin angle_y
  let tz := (-x) * sin angle_y + z * cos angle_y
  let x := tx
  let z := tz
  let ty := y * cos angle_x - z * sin angle_x
  let tz := y * sin angle_x + z * cos angle_x
  let y := ty
  let z := tz
  let dist : α := if t = ChaosType.THOMAS then 10.0 else 50.0
  let scale := (ofInt height * 0.45 * zoom_pop) / (z + dist)
  let sx := toInt (ofInt (Int.tdiv width 2) + x * scale * 2.1)
  let sy := toInt (ofInt (Int.tdiv height 2) - y * scale)
  (sx, sy)

/-- The body of the loop of `draw` for one particle: the write it appends to the buffer,
or nothing when the point falls outside `1 ≤ sx < width`, `1 ≤ sy < height`. -/
def draw_point {α : Type} [Add α] [Sub α] [Mul α] [Div α] [Neg α] [OfScientific α]
    (sin cos : α → α) (ofInt : Int → α) (toInt : α → Int) (width height : Int)
    (t : ChaosType) (angle_x angle_y zoom_pop : α) (pt : Particle α) :
    Option CellWrite :=
  let sp := screen_pos sin cos ofInt toInt width height t angle_x angle_y zoom_pop pt.pos
  let sx := sp.1
  let sy := sp.2
  if sx ≥ 1 ∧ sx < width ∧ sy ≥ 1 ∧ sy < height then
    let col := glow_color ofInt toInt pt.age
    some { sy := sy, sx := sx, r := col.1, g := col.2.1, b := col.2.2, c := glyph pt.age }
  else none

/-- The writes that the loop of `draw` appends, in the order of the trail (index 0 first). -/
def draw_writes {α : Type} [Add α] [Sub α] [Mul α] [Div α] [Neg α] [OfScientific α]
    (sin cos : α → α) (ofInt : Int → α) (toInt : α → Int) (width height : Int)
    (sys : ChaosSystem α) (angle_x angle_y zoom_pop : α) : List CellWrite :=
  sys.get_trail.filterMap
    (draw_point sin cos ofInt toInt width height sys.get_type angle_x angle_y zoom_pop)

/-- The text that `draw` appends for one write (lines 164-166). -/
def encode (w : CellWrite) : String :=
  "\x1b[" ++ toString w.sy ++ ";" ++ toString w.sx ++ "H"
    ++ "\x1b[38;2;" ++ toString w.r ++ ";" ++ toString w.g ++ ";" ++ toString w.b ++ "m"
    ++ String.singleton w.c

/-- The string `buffer` before the loop of `draw`: `clear()`, the colour of the title and
the title at row 1, column 1. -/
def draw_header : String :=
  "\x1b[H" ++ "\x1b[1;30m" ++ ("\x1b[1;1H" ++ "[ THOMAS ATTRACTOR v2.0 - C++ CHAOS ]")

/-- The method `draw(sys, angle_x, angle_y, zoom_pop)`: the payload sent to `std::cout`. -/
def draw {α : Type} [Add α] [Sub α] [Mul α] [Div α] [Neg α] [OfScientific α]
    (sin cos : α → α) (ofInt : Int → α) (toInt : α → Int) (width height : Int)
    (sys : ChaosSystem α) (angle_x angle_y zoom_pop : α) : String :=
  (draw_writes sin cos ofInt toInt width height sys angle_x angle_y zoom_pop).foldl
    (fun buffer w => buffer ++ encode w) draw_header

/-- The content of the terminal cell at row `sy`, column `sx` after the writes `ws`: colour
and glyph of the last write positioned on that cell, if any. -/
def cell_after (ws : List CellWrite) (sy sx : Int) : Option CellWrite :=
  (ws.filter (fun w => w.sy = sy ∧ w.sx = sx)).getLast?

end TerminalRenderer

end AttractorCpp

namespace AttractorC

theorem render_loop_succ {α : Type} [Zero α] [DecidableEq α] (proj : Vec3 α → Int × Int)
    (width height : Int) (trail : Int → Vec3 α) (head : Int) (b : Buffers) (n : Nat) :
    render_loop proj width height trail head b (n + 1)
      = render_point proj width height trail head
          (render_loop proj width height trail head b n) (n : Int) := by
  simp [render_loop, List.range_succ, List.foldl_append]

/-- What one iteration does to a cell: it is rewritten to `(i, get_density_char i)` exactly
when the point lands on it inside the grid with `i` below the recorded age. -/
theorem render_point_cell {α : Type} [Zero α] [DecidableEq α] (proj : Vec3 α → Int × Int)
    (width height : Int) (trail : Int → Vec3 α) (head : Int) (b : Buffers) (i sy sx : Int) :
    ((in_grid width height sy sx ∧ hits proj trail head i sy sx ∧ i < b.out_ages sy sx) →
        (render_point proj width height trail head b i).out_ages sy sx = i
        ∧ (render_point proj width height trail head b i).out_chars sy sx = get_density_char i)
    ∧ (¬ (in_grid width height sy sx ∧ hits proj trail head i sy sx ∧ i < b.out_ages sy sx) →
        (render_point proj width height trail head b i).out_ages sy sx = b.out_ages sy sx
        ∧ (render_point proj width height trail head b i).out_chars sy sx
            = b.out_chars sy sx) := by
  constructor
  · rintro ⟨hg, ⟨hx, h1, h2⟩, hlt⟩
    unfold in_grid at hg
    subst h1 h2
    simp [render_point, hx, hg, hlt]
  · intro hn
    unfold render_point
    simp only
    split_ifs with hx hg hlt
    · exact ⟨rfl, rfl⟩
    · by_cases hc : sy = (proj (trail (read_idx head i))).2 ∧ sx = (proj (trail (read_idx head i))).1
      · exfalso
        apply hn
        obtain ⟨h2, h1⟩ := hc
        subst h1 h2
        exact ⟨hg, ⟨hx, rfl, rfl⟩, hlt⟩
      · simp [hc]
    · exact ⟨rfl, rfl⟩
    · exact ⟨rfl, rfl⟩

theorem render_loop_inv {α : Type} [Zero α] [DecidableEq α] (proj : Vec3 α → Int × Int)
    (width height : Int) (trail : Int → Vec3 α) (head : Int) (sy sx : Int) (n : Nat)
    (hn : n ≤ 99999) :
    ((∀ i : Nat, i < n → ¬ (in_grid width height sy sx ∧ hits proj trail head i sy sx)) →
        (render_loop proj width height trail head clear_buffers n).out_ages sy sx = 99999
        ∧ (render_loop proj width height trail head clear_buffers n).out_chars sy sx = ' ')
    ∧ (∀ m : Nat, m < n → in_grid width height sy sx → hits proj trail head m sy sx →
        (∀ j : Nat, j < m → ¬ hits proj trail head j sy sx) →
        (render_loop proj width height trail head clear_buffers n).out_ages sy sx = m
        ∧ (render_loop proj width height trail head clear_buffers n).out_chars sy sx
            = get_density_char m) := by
  induction n with
  | zero =>
    refine ⟨fun _ => ?_, fun m hm => absurd hm (Nat.not_lt_zero m)⟩
    simp [render_loop, clear_buffers]
  | succ n ih =>
    obtain ⟨ih0, ih1⟩ := ih (by omega)
    have hcell := render_point_cell proj width height trail head
      (render_loop proj width height trail head clear_buffers n) (n : Int) sy sx
    rw [render_loop_succ]
    constructor
    · intro hno
      have hb := ih0 (fun i hi => hno i (by omega))
      have hnn := hno n (by omega)
      have := hcell.2 (fun h => hnn ⟨h.1, h.2.1⟩)
      rw [this.1, this.2]
      exact hb
    · intro m hm hg hh hmin
      by_cases hmn : m = n
      · subst hmn
        have hb := ih0 (fun i hi h => hmin i hi h.2)
        have := hcell.1 ⟨hg, hh, by rw [hb.1]; omega⟩
        exact this
      · have hb := ih1 m (by omega) hg hh hmin
        have := hcell.2 (fun h => by rw [hb.1] at h; omega)
        rw [this.1, this.2]
        exact hb


/-- C1. Render pass of attractor.c: after the loop, every cell of the grid that at least one
non-skipped trail slot projects onto holds the minimum age among those slots and the glyph
`get_density_char` of that minimum; every other cell still holds age 99999 and a blank. -/
theorem render_trajectory_min_age {α : Type} [Zero α] [DecidableEq α]
    (proj : Vec3 α → Int × Int) (width height : Int) (trail : Int → Vec3 α) (head : Int)
    (hhead : 0 ≤ head ∧ head < 4000) (sy sx : Int) :
    ((∃ i : Nat, i < MAX_POINTS ∧ in_grid width height sy sx ∧ hits proj trail head i sy sx) →
      ∃ m : Nat, m < MAX_POINTS ∧ hits proj trail head m sy sx
        ∧ (∀ j : Nat, j < MAX_POINTS → hits proj trail head j sy sx → m ≤ j)
        ∧ (render_trajectory proj width height trail head).out_ages sy sx = m
        ∧ (render_trajectory proj width height trail head).out_chars sy sx
            = get_density_char m)
    ∧ ((¬ ∃ i : Nat, i < MAX_POINTS ∧ in_grid width height sy sx
          ∧ hits proj trail head i sy sx) →
      (render_trajectory proj width height trail head).out_ages sy sx = 99999
        ∧ (render_trajectory proj width height trail head).out_chars sy sx = ' ') := by
  have _ := hhead
  unfold render_trajectory
  obtain ⟨inv0, inv1⟩ :=
    render_loop_inv proj width height trail head sy sx MAX_POINTS (by simp [MAX_POINTS])
  constructor
  · intro hex
    have hex2 : ∃ i : Nat, i < MAX_POINTS ∧ hits proj trail head i sy sx := by
      obtain ⟨i, hi, _, hh⟩ := hex
      exact ⟨i, hi, hh⟩
    classical
    have hspec := Nat.find_spec hex2
    refine ⟨Nat.find hex2, hspec.1, hspec.2, ?_, ?_⟩
    · intro j hj hh
      exact Nat.find_min' hex2 ⟨hj, hh⟩
    · obtain ⟨i, _, hg, _⟩ := hex
      exact inv1 (Nat.find hex2) hspec.1 hg hspec.2
        (fun j hj hh => Nat.find_min hex2 hj ⟨by omega, hh⟩)
  · intro hno
    exact inv0 (fun i hi h => hno ⟨i, hi, h.1, h.2⟩)

theorem read_idx_zero (i : Nat) (hi : i < MAX_POINTS) : read_idx 0 (i : Int) = 3999 - i := by
  unfold MAX_POINTS at hi
  unfold read_idx cmod MAX_POINTS
  rw [Int.tmod_eq_emod (by omega) (by decide)]
  omega

theorem hits_two_point (i : Nat) (hi : i < MAX_POINTS) :
    hits (fun _ => ((3 : Int), (2 : Int))) two_point_trail 0 (i : Int) 2 3 ↔ i = 5 ∨ i = 50 := by
  unfold hits two_point_trail
  have e5 : read_idx 0 5 = 3994 := by decide
  have e50 : read_idx 0 50 = 3949 := by decide
  rw [read_idx_zero i hi, e5, e50]
  unfold MAX_POINTS at hi
  constructor
  · rintro ⟨hx, _, _⟩
    by_contra hc
    apply hx
    rw [if_neg]
    omega
  · intro h
    refine ⟨?_, rfl, rfl⟩
    rw [if_pos]
    · norm_num
    · omega

/-- C1, at a concrete input: two points of ages 5 and 50 that project onto the cell
`(sx, sy) = (3, 2)` of a 100 × 40 grid resolve to age 5 and the glyph of age 5. -/
theorem render_trajectory_min_age_witness :
    (0 ≤ (0 : Int) ∧ (0 : Int) < 4000)
    ∧ (render_trajectory (fun _ => ((3 : Int), (2 : Int))) 100 40 two_point_trail 0).out_ages 2 3
        = 5
    ∧ (render_trajectory (fun _ => ((3 : Int), (2 : Int))) 100 40 two_point_trail 0).out_chars 2 3
        = get_density_char 5 := by
  refine ⟨by decide, ?_⟩
  have h := (render_trajectory_min_age (fun _ => ((3 : Int), (2 : Int))) 100 40
    two_point_trail 0 (by decide) 2 3).1
    ⟨5, by decide, by unfold in_grid; decide, (hits_two_point 5 (by decide)).2 (Or.inl rfl)⟩
  obtain ⟨m, hm, hh, hmin, ha, hc⟩ := h
  have h5 : m ≤ 5 := hmin 5 (by decide) ((hits_two_point 5 (by decide)).2 (Or.inl rfl))
  have hm5 : m = 5 := by
    rcases (hits_two_point m hm).1 hh with h | h
    · exact h
    · omega
  subst hm5
  exact ⟨ha, hc⟩

end AttractorC

namespace AttractorCpp
namespace ChaosSystem

theorem updates_append {α : Type} [Add α] [Sub α] [Mul α] [Div α] [OfScientific α]
    (sin : α → α) (pow : α → α → α) (s : ChaosSystem α) (dts : List α) (dt : α) :
    updates sin pow s (dts ++ [dt]) = update sin pow (updates sin pow s dts) dt := by
  simp [updates, List.foldl_append]

/-- The trail after `update`, for a trail within the capacity: the new particle in front,
cut to 3000 particles, every age incremented. -/
theorem update_trail {α : Type} [Add α] [Sub α] [Mul α] [Div α] [OfScientific α]
    (sin : α → α) (pow : α → α → α) (s : ChaosSystem α) (dt : α) (hlen : s.trail.length ≤ 3000) :
    (update sin pow s dt).trail
      = (((⟨(update sin pow s dt).p, 0⟩ : Particle α) :: s.trail).take 3000).map
          (fun q => { q with age := q.age + 1 }) := by
  unfold update
  simp only
  congr 1
  split_ifs with h
  · rw [List.dropLast_eq_take]
    congr 1
    simp only [List.length_cons] at h ⊢
    omega
  · rw [List.take_of_length_le]
    simp only [List.length_cons] at h ⊢
    omega

theorem update_trail_length {α : Type} [Add α] [Sub α] [Mul α] [Div α] [OfScientific α]
    (sin : α → α) (pow : α → α → α) (s : ChaosSystem α) (dt : α) (hlen : s.trail.length ≤ 3000) :
    (update sin pow s dt).trail.length = min (s.trail.length + 1) 3000 := by
  rw [update_trail sin pow s dt hlen]
  simp only [List.length_map, List.length_take, List.length_cons]
  omega

theorem update_type {α : Type} [Add α] [Sub α] [Mul α] [Div α] [OfScientific α]
    (sin : α → α) (pow : α → α → α) (s : ChaosSystem α) (dt : α) :
    (update sin pow s dt).type = s.type := rfl

theorem update_trail_zero {α : Type} [Add α] [Sub α] [Mul α] [Div α] [OfScientific α]
    (sin : α → α) (pow : α → α → α) (s : ChaosSystem α) (dt : α) (hlen : s.trail.length ≤ 3000) :
    (update sin pow s dt).trail[0]? = some ⟨(update sin pow s dt).p, 1⟩ := by
  rw [update_trail sin pow s dt hlen]
  simp

theorem update_trail_succ {α : Type} [Add α] [Sub α] [Mul α] [Div α] [OfScientific α]
    (sin : α → α) (pow : α → α → α) (s : ChaosSystem α) (dt : α) (hlen : s.trail.length ≤ 3000)
    (i : Nat) (hi : i + 1 < 3000) :
    (update sin pow s dt).trail[i + 1]?
      = (s.trail[i]?).map (fun q => { q with age := q.age + 1 }) := by
  rw [update_trail sin pow s dt hlen]
  rw [List.getElem?_map, List.getElem?_take_of_lt hi]
  simp

/-- Length of the trail after the updates `dts` from a reset. -/
theorem updates_trail_length {α : Type} [Add α] [Sub α] [Mul α] [Div α] [OfScientific α]
    (sin : α → α) (pow : α → α → α) (s0 : ChaosSystem α) (dts : List α) :
    (updates sin pow (reset s0) dts).trail.length = min dts.length 3000 := by
  induction dts using List.reverseRecOn with
  | nil => simp [updates, reset]
  | append_singleton dts dt ih =>
    rw [updates_append, update_trail_length _ _ _ _ (by rw [ih]; exact min_le_right _ _), ih]
    simp only [List.length_append, List.length_singleton]
    omega

/-- Ages after the updates `dts` from a reset: the particle at index `i` has age `i + 1`. -/
theorem updates_age {α : Type} [Add α] [Sub α] [Mul α] [Div α] [OfScientific α]
    (sin : α → α) (pow : α → α → α) (s0 : ChaosSystem α) (dts : List α) (i : Nat)
    (hi : i < (updates sin pow (reset s0) dts).trail.length) :
    ((updates sin pow (reset s0) dts).trail[i]?).map Particle.age = some ((i : Int) + 1) := by
  induction dts using List.reverseRecOn generalizing i with
  | nil => simp [updates, reset] at hi
  | append_singleton dts d ih =>
    have hlen : (updates sin pow (reset s0) dts).trail.length ≤ 3000 := by
      rw [updates_trail_length]
      exact min_le_right _ _
    rw [updates_append] at hi ⊢
    rw [update_trail_length _ _ _ _ hlen] at hi
    cases i with
    | zero =>
      rw [update_trail_zero _ _ _ _ hlen]
      simp
    | succ i =>
      have hi1 : i + 1 < 3000 := lt_of_lt_of_le hi (min_le_right _ _)
      have hi2 : i < (updates sin pow (reset s0) dts).trail.length := by
        have := lt_of_lt_of_le hi (min_le_left _ _)
        omega
      rw [update_trail_succ _ _ _ _ hlen i hi1, Option.map_map]
      have := ih i hi2
      rw [List.getElem?_eq_getElem hi2] at this ⊢
      simp only [Option.map_some', Option.some.injEq, Function.comp] at this ⊢
      rw [this]
      push_cast
      ring

/-- Ages grow strictly along the trail: a particle further back is older. -/
theorem updates_ages_increasing {α : Type} [Add α] [Sub α] [Mul α] [Div α] [OfScientific α]
    (sin : α → α) (pow : α → α → α) (s0 : ChaosSystem α) (dts : List α) :
    (updates sin pow (reset s0) dts).trail.Pairwise (fun a b => a.age < b.age) := by
  rw [List.pairwise_iff_getElem]
  intro i j hi hj hij
  have h1 := updates_age sin pow s0 dts i hi
  have h2 := updates_age sin pow s0 dts j hj
  rw [List.getElem?_eq_getElem hi] at h1
  rw [List.getElem?_eq_getElem hj] at h2
  simp only [Option.map_some', Option.some.injEq] at h1 h2
  rw [h1, h2]
  omega

theorem updates_replicate_succ {α : Type} [Add α] [Sub α] [Mul α] [Div α] [OfScientific α]
    (sin : α → α) (pow : α → α → α) (s : ChaosSystem α) (dt : α) (n : Nat) :
    updates sin pow s (List.replicate (n + 1) dt)
      = update sin pow (updates sin pow s (List.replicate n dt)) dt := by
  rw [List.replicate_succ', updates_append]

theorem updates_type {α : Type} [Add α] [Sub α] [Mul α] [Div α] [OfScientific α]
    (sin : α → α) (pow : α → α → α) (s : ChaosSystem α) (dts : List α) :
    (updates sin pow s dts).type = s.type := by
  induction dts using List.reverseRecOn with
  | nil => rfl
  | append_singleton dts dt ih => rw [updates_append, update_type, ih]

/-- The position after a Thomas `update` over the reals, coordinate by coordinate. -/
theorem update_thomas_p (pow : ℝ → ℝ → ℝ) (s : ChaosSystem ℝ) (dt : ℝ)
    (ht : s.type = ChaosType.THOMAS) :
    (update Real.sin pow s dt).p
      = ⟨s.p.x + (Real.sin s.p.y - 0.19 * s.p.x) * dt,
         s.p.y + (Real.sin s.p.z - 0.19 * s.p.y) * dt,
         s.p.z + (Real.sin s.p.x - 0.19 * s.p.z) * dt⟩ := by
  simp [update, derivative, ht]

end ChaosSystem

/-- C2. Trail of attractor.cpp: after `n` calls of `update` since the last `reset()` the
trail has exactly `min n 3000` particles, and the particle at index `i` carries the position
produced by the update number `n - i` (newest first). -/
theorem trail_holds_most_recent {α : Type} [Add α] [Sub α] [Mul α] [Div α] [OfScientific α]
    (sin : α → α) (pow : α → α → α) (s0 : ChaosSystem α) (dts : List α) :
    (ChaosSystem.updates sin pow s0.reset dts).get_trail.length = min dts.length 3000
    ∧ ∀ i : Nat, i < min dts.length 3000 →
        ((ChaosSystem.updates sin pow s0.reset dts).get_trail[i]?).map Particle.pos
          = some (ChaosSystem.updates sin pow s0.reset (dts.take (dts.length - i))).p := by
  unfold ChaosSystem.get_trail
  refine ⟨ChaosSystem.updates_trail_length sin pow s0 dts, ?_⟩
  induction dts using List.reverseRecOn with
  | nil => intro i hi; simp at hi
  | append_singleton dts dt ih =>
    intro i hi
    have hlen : (ChaosSystem.updates sin pow s0.reset dts).trail.length ≤ 3000 := by
      rw [ChaosSystem.updates_trail_length]
      exact min_le_right _ _
    simp only [List.length_append, List.length_singleton] at hi ⊢
    rw [ChaosSystem.updates_append]
    cases i with
    | zero =>
      rw [ChaosSystem.update_trail_zero _ _ _ _ hlen]
      have e : (dts ++ [dt]).take (dts.length + 1 - 0) = dts ++ [dt] :=
        List.take_of_length_le (by simp)
      rw [e, ChaosSystem.updates_append]
      rfl
    | succ i =>
      have hi1 : i + 1 < 3000 := lt_of_lt_of_le hi (min_le_right _ _)
      have hi2 : i < min dts.length 3000 := by
        have := lt_of_lt_of_le hi (min_le_left _ _)
        exact lt_min (by omega) (by omega)
      rw [ChaosSystem.update_trail_succ _ _ _ _ hlen i hi1]
      have := ih i hi2
      rw [Option.map_map]
      have e : dts.length + 1 - (i + 1) = dts.length - i := by omega
      rw [e, List.take_append_of_le_length (by omega)]
      rw [← this]
      cases (ChaosSystem.updates sin pow s0.reset dts).trail[i]? <;> rfl

/-- C2, at a concrete input: two Thomas updates with `dt = 0.05` over the reals. -/
theorem trail_holds_most_recent_witness :
    (ChaosSystem.updates Real.sin (fun x y : ℝ => x ^ y)
        (ChaosSystem.init ChaosType.THOMAS).reset [0.05, 0.05]).get_trail.length = 2
    ∧ ((ChaosSystem.updates Real.sin (fun x y : ℝ => x ^ y)
        (ChaosSystem.init ChaosType.THOMAS).reset [0.05, 0.05]).get_trail[1]?).map Particle.pos
      = some (ChaosSystem.updates Real.sin (fun x y : ℝ => x ^ y)
          (ChaosSystem.init ChaosType.THOMAS).reset [0.05]).p := by
  have h := trail_holds_most_recent Real.sin (fun x y : ℝ => x ^ y)
    (ChaosSystem.init ChaosType.THOMAS) [0.05, 0.05]
  exact ⟨by simpa using h.1, by simpa using h.2 1 (by simp)⟩

/-- C4 as stated fails: after the first `update` of a fresh Thomas system the only particle,
at index 0, has age 1, so `get_trail()[i].age == i` is false at `i = 0`. -/
theorem age_equals_index_fails :
    ¬ (∀ i : Nat,
        i < (ChaosSystem.update Real.sin (fun x y : ℝ => x ^ y)
              (ChaosSystem.init ChaosType.THOMAS) 0.05).get_trail.length →
        ((ChaosSystem.update Real.sin (fun x y : ℝ => x ^ y)
              (ChaosSystem.init ChaosType.THOMAS) 0.05).get_trail[i]?).map Particle.age
          = some (i : Int)) := by
  intro h
  have h0 := h 0 (by simp [ChaosSystem.get_trail, ChaosSystem.update, ChaosSystem.init])
  simp [ChaosSystem.get_trail, ChaosSystem.update, ChaosSystem.init] at h0

/-- C4, amended: after any number of calls of `update` since a reset, the particle at index
`i` has age `i + 1` (the stored ages are the contiguous range `1..size`); one more `update`
puts the new particle at index 0 with age 1 and every older particle one index further with
its age grown by 1. -/
theorem age_is_index_plus_one {α : Type} [Add α] [Sub α] [Mul α] [Div α] [OfScientific α]
    (sin : α → α) (pow : α → α → α) (s0 : ChaosSystem α) (dts : List α) (dt : α) :
    (∀ i : Nat, i < (ChaosSystem.updates sin pow s0.reset dts).get_trail.length →
        ((ChaosSystem.updates sin pow s0.reset dts).get_trail[i]?).map Particle.age
          = some ((i : Int) + 1))
    ∧ ((ChaosSystem.update sin pow (ChaosSystem.updates sin pow s0.reset dts) dt).get_trail[0]?).map
          Particle.age = some 1
    ∧ (∀ i : Nat,
        i + 1 < (ChaosSystem.update sin pow
                  (ChaosSystem.updates sin pow s0.reset dts) dt).get_trail.length →
        ((ChaosSystem.update sin pow
            (ChaosSystem.updates sin pow s0.reset dts) dt).get_trail[i + 1]?).map Particle.age
          = ((ChaosSystem.updates sin pow s0.reset dts).get_trail[i]?).map
              (fun q => q.age + 1)) := by
  unfold ChaosSystem.get_trail
  have hlen : ∀ l : List α, (ChaosSystem.updates sin pow s0.reset l).trail.length ≤ 3000 := by
    intro l
    rw [ChaosSystem.updates_trail_length]
    exact min_le_right _ _
  refine ⟨ChaosSystem.updates_age sin pow s0 dts, ?_, ?_⟩
  · rw [ChaosSystem.update_trail_zero _ _ _ _ (hlen dts)]
    simp
  · intro i hi
    rw [ChaosSystem.update_trail_length _ _ _ _ (hlen dts)] at hi
    have hi1 : i + 1 < 3000 := lt_of_lt_of_le hi (min_le_right _ _)
    rw [ChaosSystem.update_trail_succ _ _ _ _ (hlen dts) i hi1, Option.map_map]
    rfl

/-- C4 amended, at a concrete input: after two Thomas updates the particle at index 1 has
age 2. -/
theorem age_is_index_plus_one_witness :
    ((ChaosSystem.updates Real.sin (fun x y : ℝ => x ^ y)
        (ChaosSystem.init ChaosType.THOMAS).reset [0.05, 0.05]).get_trail[1]?).map Particle.age
      = some 2 := by
  have h := (age_is_index_plus_one Real.sin (fun x y : ℝ => x ^ y)
    (ChaosSystem.init ChaosType.THOMAS) [0.05, 0.05] 0.05).1 1
    (by rw [ChaosSystem.get_trail, ChaosSystem.updates_trail_length]; simp)
  simpa using h

end AttractorCpp

namespace AttractorC

theorem cmod_of_nonneg (a : Int) (h : 0 ≤ a) : cmod a MAX_POINTS = a % 4000 := by
  unfold cmod MAX_POINTS
  exact Int.tmod_eq_emod h (by decide)

theorem read_idx_eq (head i : Int) (hh : 0 ≤ head ∧ head < 4000) (hi : 0 ≤ i ∧ i < 4000) :
    read_idx head i = (head - 1 - i + 4000) % 4000 := by
  unfold read_idx
  rw [cmod_of_nonneg _ (by unfold MAX_POINTS; omega)]
  rfl

theorem push_all_append {α : Type} (r : TrailBuf α) (ps : List (Vec3 α)) (p : Vec3 α) :
    push_all r (ps ++ [p]) = push (push_all r ps) p := by
  simp [push_all, List.foldl_append]

theorem push_head {α : Type} (r : TrailBuf α) (p : Vec3 α) (hh : 0 ≤ r.head ∧ r.head < 4000) :
    (push r p).head = (r.head + 1) % 4000 := by
  unfold push
  simp only
  exact cmod_of_nonneg _ (by omega)

/-- Ring invariant: after the pushes `ps` on a zeroed array, the head is in range and the
slot of age `i` holds the point of the push number `length - i`, or zero if there is none. -/
theorem push_all_inv {α : Type} [Zero α] (head0 : Int) (h0 : 0 ≤ head0 ∧ head0 < 4000)
    (ps : List (Vec3 α)) :
    (0 ≤ (push_all ⟨zero_trail, head0⟩ ps).head ∧ (push_all ⟨zero_trail, head0⟩ ps).head < 4000)
    ∧ ∀ i : Nat, i < 4000 →
        (push_all ⟨zero_trail, head0⟩ ps).trail
            (read_idx (push_all ⟨zero_trail, head0⟩ ps).head (i : Int))
          = if i < ps.length then (ps[ps.length - 1 - i]?).getD ⟨0, 0, 0⟩ else ⟨0, 0, 0⟩ := by
  induction ps using List.reverseRecOn with
  | nil =>
    refine ⟨by simpa [push_all] using h0, fun i _ => ?_⟩
    simp [push_all, zero_trail]
  | append_singleton ps p ih =>
    obtain ⟨ihh, iht⟩ := ih
    rw [push_all_append]
    have hhead := push_head (push_all ⟨zero_trail, head0⟩ ps) p ihh
    refine ⟨by rw [hhead]; omega, fun i hi => ?_⟩
    rw [hhead]
    rw [read_idx_eq _ _ (by omega) (by omega)]
    by_cases hi0 : i = 0
    · subst hi0
      have e2 : (((push_all ⟨zero_trail, head0⟩ ps).head + 1) % 4000 - 1 - ((0 : Nat) : Int)
          + 4000) % 4000 = (push_all ⟨zero_trail, head0⟩ ps).head := by omega
      rw [e2]
      simp [push]
    · have e2 : (((push_all ⟨zero_trail, head0⟩ ps).head + 1) % 4000 - 1 - (i : Int) + 4000)
          % 4000 = read_idx (push_all ⟨zero_trail, head0⟩ ps).head ((i - 1 : Nat) : Int) := by
        rw [read_idx_eq _ _ ihh (by omega)]
        omega
      have ne : read_idx (push_all ⟨zero_trail, head0⟩ ps).head ((i - 1 : Nat) : Int)
          ≠ (push_all ⟨zero_trail, head0⟩ ps).head := by
        rw [read_idx_eq _ _ ihh (by omega)]
        omega
      rw [e2]
      unfold push
      simp only
      rw [Function.update_noteq ne, iht (i - 1) (by omega)]
      simp only [List.length_append, List.length_singleton]
      by_cases hlt : i - 1 < ps.length
      · rw [if_pos hlt, if_pos (by omega)]
        have e3 : ps.length + 1 - 1 - i = ps.length - 1 - (i - 1) := by omega
        rw [e3, List.getElem?_append_left (by omega)]
      · rw [if_neg hlt, if_neg (by omega)]

/-- C3. Ring buffer of attractor.c: after `n ≥ 1` pushes on a zeroed array from any head in
`[0, 4000)`, the head is in range, every read index is in range, the slot of age `i` holds
the point of push number `n - i` for `i < min n 4000` and is still zero for the other ages,
and once `n ≥ 4000` the next push overwrites exactly the slot of the oldest point. -/
theorem ring_after_pushes {α : Type} [Zero α] (head0 : Int) (h0 : 0 ≤ head0 ∧ head0 < 4000)
    (ps : List (Vec3 α)) (hn : 1 ≤ ps.length) (p : Vec3 α) :
    (0 ≤ (push_all ⟨zero_trail, head0⟩ ps).head ∧ (push_all ⟨zero_trail, head0⟩ ps).head < 4000)
    ∧ (∀ i : Int, 0 ≤ i → i < 4000 →
        0 ≤ read_idx (push_all ⟨zero_trail, head0⟩ ps).head i
        ∧ read_idx (push_all ⟨zero_trail, head0⟩ ps).head i < 4000)
    ∧ (∀ i : Nat, i < min ps.length 4000 →
        ps[ps.length - 1 - i]? = some ((push_all ⟨zero_trail, head0⟩ ps).trail
          (read_idx (push_all ⟨zero_trail, head0⟩ ps).head (i : Int))))
    ∧ (∀ i : Nat, min ps.length 4000 ≤ i → i < 4000 →
        (push_all ⟨zero_trail, head0⟩ ps).trail
          (read_idx (push_all ⟨zero_trail, head0⟩ ps).head (i : Int)) = ⟨0, 0, 0⟩)
    ∧ (4000 ≤ ps.length →
        read_idx (push_all ⟨zero_trail, head0⟩ ps).head 3999
          = (push_all ⟨zero_trail, head0⟩ ps).head
        ∧ ps[ps.length - 4000]? = some ((push_all ⟨zero_trail, head0⟩ ps).trail
            (push_all ⟨zero_trail, head0⟩ ps).head)
        ∧ (push (push_all ⟨zero_trail, head0⟩ ps) p).trail
            (push_all ⟨zero_trail, head0⟩ ps).head = p
        ∧ ∀ j : Int, j ≠ (push_all ⟨zero_trail, head0⟩ ps).head →
            (push (push_all ⟨zero_trail, head0⟩ ps) p).trail j
              = (push_all ⟨zero_trail, head0⟩ ps).trail j) := by
  have _ := hn
  obtain ⟨hh, ht⟩ := push_all_inv head0 h0 ps
  have hlast : read_idx (push_all ⟨zero_trail, head0⟩ ps).head 3999
      = (push_all ⟨zero_trail, head0⟩ ps).head := by
    rw [read_idx_eq _ _ hh (by omega)]
    omega
  refine ⟨hh, ?_, ?_, ?_, ?_⟩
  · intro i hi0 hi
    rw [read_idx_eq _ _ hh ⟨hi0, hi⟩]
    omega
  · intro i hi
    have hi1 : i < ps.length := lt_of_lt_of_le hi (min_le_left _ _)
    have hi2 : i < 4000 := lt_of_lt_of_le hi (min_le_right _ _)
    rw [ht i hi2, if_pos hi1]
    have hlt : ps.length - 1 - i < ps.length := by omega
    rw [List.getElem?_eq_getElem hlt]
    simp
  · intro i hi hi2
    have hi1 : ¬ i < ps.length := by
      intro hc
      have := lt_min hc hi2
      omega
    rw [ht i hi2, if_neg hi1]
  · intro hfull
    refine ⟨hlast, ?_, ?_, ?_⟩
    · have h3 := ht 3999 (by omega)
      have e : ((3999 : Nat) : Int) = 3999 := rfl
      rw [e, hlast, if_pos (by omega)] at h3
      have hlt : ps.length - 1 - 3999 < ps.length := by omega
      rw [h3, List.getElem?_eq_getElem hlt]
      have e2 : ps.length - 4000 = ps.length - 1 - 3999 := by omega
      simp [e2]
    · simp [push]
    · intro j hj
      simp [push, Function.update_noteq hj]

/-- C3, at a concrete input: one push of `(1, 2, 3)` at head 3999 wraps the head to 0. -/
theorem ring_after_pushes_witness :
    (push_all ⟨zero_trail, 3999⟩ [(⟨1, 2, 3⟩ : Vec3 ℚ)]).head = 0
    ∧ (push_all ⟨zero_trail, 3999⟩ [(⟨1, 2, 3⟩ : Vec3 ℚ)]).trail
        (read_idx (push_all ⟨zero_trail, 3999⟩ [(⟨1, 2, 3⟩ : Vec3 ℚ)]).head 0) = ⟨1, 2, 3⟩ := by
  have h := ring_after_pushes (3999 : Int) (by decide) [(⟨1, 2, 3⟩ : Vec3 ℚ)] (by decide)
    ⟨0, 0, 0⟩
  refine ⟨by decide, ?_⟩
  have h2 := h.2.2.1 0 (by decide)
  simpa using h2.symm

end AttractorC

namespace AttractorC

theorem render_zero_trail_blank {α : Type} [Zero α] [DecidableEq α] (proj : Vec3 α → Int × Int)
    (width height head sy sx : Int) :
    (render_trajectory proj width height zero_trail head).out_ages sy sx = 99999
    ∧ (render_trajectory proj width height zero_trail head).out_chars sy sx = ' ' := by
  unfold render_trajectory
  refine (render_loop_inv proj width height zero_trail head sy sx MAX_POINTS
    (by simp [MAX_POINTS])).1 (fun i _ h => ?_)
  exact h.2.1 rfl

end AttractorC

/-- C5. Switching the system kind leaves no valid trail point.  In attractor.cpp, after
`set_type(t)` the type is `t`, the position is `(0.1, 0.1, 0.1)`, the trail is empty and
`draw` appends no cell write to the header.  In attractor.c, after the switch branch every
trail slot is the zero vector and the render pass on that trail leaves every cell blank. -/
theorem switch_clears_trail {α : Type} [Add α] [Sub α] [Mul α] [Div α] [Neg α] [Zero α]
    [OfScientific α] [DecidableEq α] (sin cos : α → α) (ofInt : Int → α) (toInt : α → Int)
    (s : AttractorCpp.ChaosSystem α) (t : AttractorCpp.ChaosType) (width height : Int)
    (angle_x angle_y zoom_pop : α) (c : AttractorC.Sim α) (proj : Vec3 α → Int × Int)
    (head sy sx : Int) :
    ((s.set_type t).get_type = t
      ∧ (s.set_type t).p = ⟨0.1, 0.1, 0.1⟩
      ∧ (s.set_type t).get_trail = []
      ∧ AttractorCpp.TerminalRenderer.draw_writes sin cos ofInt toInt width height
          (s.set_type t) angle_x angle_y zoom_pop = []
      ∧ AttractorCpp.TerminalRenderer.draw sin cos ofInt toInt width height
          (s.set_type t) angle_x angle_y zoom_pop = AttractorCpp.TerminalRenderer.draw_header)
    ∧ ((∀ idx : Int, (AttractorC.switch_system c).trail idx = ⟨0, 0, 0⟩)
      ∧ (AttractorC.render_trajectory proj width height
            (AttractorC.switch_system c).trail head).out_ages sy sx = 99999
      ∧ (AttractorC.render_trajectory proj width height
            (AttractorC.switch_system c).trail head).out_chars sy sx = ' ') := by
  refine ⟨⟨rfl, rfl, rfl, rfl, rfl⟩, fun _ => rfl, ?_⟩
  have e : (AttractorC.switch_system c).trail = AttractorC.zero_trail := rfl
  rw [e]
  exact AttractorC.render_zero_trail_blank proj width height head sy sx

namespace AttractorCpp

/-- The last element that passes the filter, when nothing after `q` passes it. -/
theorem getLast_filter_filterMap {β γ : Type} (f : β → Option γ) (P : γ → Bool)
    (l1 l2 : List β) (q : β) (w : γ) (hf : f q = some w) (hP : P w = true)
    (hl2 : ∀ q2 ∈ l2, ∀ w2, f q2 = some w2 → P w2 = false) :
    (((l1 ++ q :: l2).filterMap f).filter P).getLast? = some w := by
  have hnil : (l2.filterMap f).filter P = [] := by
    rw [List.filter_eq_nil_iff]
    intro w2 hw2
    obtain ⟨q2, hq2, hfq⟩ := List.mem_filterMap.1 hw2
    simp [hl2 q2 hq2 w2 hfq]
  rw [List.filterMap_append, List.filterMap_cons, hf, List.filter_append, List.filter_cons,
    if_pos hP, hnil]
  exact List.getLast?_concat _

namespace ChaosSystem

/-- With `dt = 0` over the reals the Euler step leaves the position where it is. -/
theorem update_zero_dt_p (pow : ℝ → ℝ → ℝ) (s : ChaosSystem ℝ) :
    (update Real.sin pow s 0).p = s.p := by
  simp [update]

/-- The state after `n ≤ 3000` calls `update(0)` on a fresh system: `n` particles at the
seed, with ages `1, ..., n`. -/
theorem updates_zero_dt (pow : ℝ → ℝ → ℝ) (t : ChaosType) (n : Nat) (hn : n ≤ 3000) :
    (updates Real.sin pow (init t) (List.replicate n 0)).p = ⟨0.1, 0.1, 0.1⟩
    ∧ (updates Real.sin pow (init t) (List.replicate n 0)).trail
        = (List.range n).map (fun i : Nat => (⟨⟨0.1, 0.1, 0.1⟩, (i : Int) + 1⟩ : Particle ℝ)) := by
  induction n with
  | zero => exact ⟨rfl, rfl⟩
  | succ n ih =>
    obtain ⟨ihp, iht⟩ := ih (by omega)
    rw [updates_replicate_succ]
    have hp : (update Real.sin pow (updates Real.sin pow (init t) (List.replicate n 0)) 0).p
        = ⟨0.1, 0.1, 0.1⟩ := by
      rw [update_zero_dt_p, ihp]
    refine ⟨hp, ?_⟩
    rw [update_trail _ _ _ _ (by rw [iht]; simp; omega), hp, iht]
    rw [List.take_of_length_le (by simp; omega)]
    rw [List.range_succ_eq_map]
    simp [Function.comp_def, add_assoc]

end ChaosSystem

namespace TerminalRenderer

/-- The seed `(0.1, 0.1, 0.1)` of a Thomas system, seen with both angles 0 and zoom 1 on an
80 × 24 terminal over the reals, lands on column 40 of row 11. -/
theorem seed_screen_pos :
    screen_pos Real.sin Real.cos (fun n : Int => (n : ℝ)) trunc_toward_zero 80 24
      ChaosType.THOMAS 0 0 1 ⟨0.1, 0.1, 0.1⟩ = (40, 11) := by
  have h40 : Int.tdiv 80 2 = 40 := by decide
  have h12 : Int.tdiv 24 2 = 12 := by decide
  have hx : trunc_toward_zero ((40 : ℝ) + 0.1 * (24 * 0.45 / (0.1 + 10.0)) * 2.1) = 40 := by
    unfold trunc_toward_zero
    rw [if_pos (by norm_num), Int.floor_eq_iff]
    constructor <;> norm_num
  have hy : trunc_toward_zero ((12 : ℝ) - 0.1 * (24 * 0.45 / (0.1 + 10.0))) = 11 := by
    unfold trunc_toward_zero
    rw [if_pos (by norm_num), Int.floor_eq_iff]
    constructor <;> norm_num
  simp only [screen_pos, Real.sin_zero, Real.cos_zero, h40, h12, if_true, mul_one, mul_zero,
    add_zero, sub_zero, zero_add, neg_mul, neg_zero, Int.cast_ofNat]
  rw [hx, hy]

/-- The write of `draw` for a particle at the seed with age `a`, same view as above. -/
theorem draw_point_seed (a : Int) :
    draw_point Real.sin Real.cos (fun n : Int => (n : ℝ)) trunc_toward_zero 80 24
        ChaosType.THOMAS 0 0 1 ⟨⟨0.1, 0.1, 0.1⟩, a⟩
      = some { sy := 11, sx := 40,
               r := (glow_color (fun n : Int => (n : ℝ)) trunc_toward_zero a).1,
               g := (glow_color (fun n : Int => (n : ℝ)) trunc_toward_zero a).2.1,
               b := (glow_color (fun n : Int => (n : ℝ)) trunc_toward_zero a).2.2,
               c := glyph a } := by
  unfold draw_point
  simp only [seed_screen_pos]
  rw [if_pos (by decide)]

end TerminalRenderer

/-- C6 as stated fails.  After 100 calls `update(0)` on a fresh Thomas system the trail holds
100 particles at the seed with ages 1..100; with both angles 0 and zoom 1 on an 80 × 24
terminal every one of them is written to row 11, column 40.  The lowest-age particle writes
a white `@`, but the cell ends up with the `#` in colour (60, 220, 255) of the age-100
particle, which is written last. -/
theorem draw_youngest_overridden :
    (ChaosSystem.updates Real.sin (fun x y : ℝ => x ^ y) (ChaosSystem.init ChaosType.THOMAS)
        (List.replicate 100 0)).get_trail
      = (List.range 100).map (fun i : Nat => (⟨⟨0.1, 0.1, 0.1⟩, (i : Int) + 1⟩ : Particle ℝ))
    ∧ (∀ a : Int, ∃ w : TerminalRenderer.CellWrite,
        TerminalRenderer.draw_point Real.sin Real.cos (fun n : Int => (n : ℝ)) trunc_toward_zero
          80 24 ChaosType.THOMAS 0 0 1 ⟨⟨0.1, 0.1, 0.1⟩, a⟩ = some w ∧ w.sy = 11 ∧ w.sx = 40)
    ∧ TerminalRenderer.draw_point Real.sin Real.cos (fun n : Int => (n : ℝ)) trunc_toward_zero
          80 24 ChaosType.THOMAS 0 0 1 ⟨⟨0.1, 0.1, 0.1⟩, 1⟩
        = some { sy := 11, sx := 40, r := 255, g := 255, b := 255, c := '@' }
    ∧ TerminalRenderer.cell_after
        (TerminalRenderer.draw_writes Real.sin Real.cos (fun n : Int => (n : ℝ))
          trunc_toward_zero 80 24
          (ChaosSystem.updates Real.sin (fun x y : ℝ => x ^ y)
            (ChaosSystem.init ChaosType.THOMAS) (List.replicate 100 0)) 0 0 1) 11 40
        = some { sy := 11, sx := 40, r := 60, g := 220, b := 255, c := '#' } := by
  have htrail := (ChaosSystem.updates_zero_dt (fun x y : ℝ => x ^ y) ChaosType.THOMAS 100
    (by omega)).2
  refine ⟨htrail, fun a => ⟨_, TerminalRenderer.draw_point_seed a, rfl, rfl⟩, ?_, ?_⟩
  · rw [TerminalRenderer.draw_point_seed]
    rfl
  · unfold TerminalRenderer.cell_after TerminalRenderer.draw_writes ChaosSystem.get_trail
      ChaosSystem.get_type
    rw [ChaosSystem.updates_type, htrail, List.range_succ, List.map_append]
    have hlast : TerminalRenderer.draw_point Real.sin Real.cos (fun n : Int => (n : ℝ))
        trunc_toward_zero 80 24 (ChaosSystem.init ChaosType.THOMAS : ChaosSystem ℝ).type 0 0 1
        ⟨⟨0.1, 0.1, 0.1⟩, ((99 : Nat) : Int) + 1⟩
        = some { sy := 11, sx := 40, r := 60, g := 220, b := 255, c := '#' } := by
      have e : (ChaosSystem.init ChaosType.THOMAS : ChaosSystem ℝ).type = ChaosType.THOMAS := rfl
      rw [e, TerminalRenderer.draw_point_seed]
      rfl
    exact getLast_filter_filterMap _ _ _ [] _ _ hlast (by decide) (by simp)

/-- C6, amended: for a trail produced by calls of `update` since a reset, the cell content
after `draw` is the write of the highest-age (oldest) particle among those written to that
cell: `draw` keeps no age buffer and writes the trail newest first, so the oldest point on a
cell overrides every younger one. -/
theorem draw_oldest_wins {α : Type} [Add α] [Sub α] [Mul α] [Div α] [Neg α] [OfScientific α]
    (sin cos : α → α) (pow : α → α → α) (ofInt : Int → α) (toInt : α → Int)
    (s0 : ChaosSystem α) (dts : List α) (sys : ChaosSystem α)
    (hsys : sys = ChaosSystem.updates sin pow s0.reset dts)
    (width height : Int) (angle_x angle_y zoom_pop : α) (sy sx : Int)
    (q : Particle α) (w : TerminalRenderer.CellWrite)
    (hq : q ∈ sys.get_trail)
    (hw : TerminalRenderer.draw_point sin cos ofInt toInt width height sys.get_type
            angle_x angle_y zoom_pop q = some w)
    (hcell : w.sy = sy ∧ w.sx = sx)
    (hold : ∀ q2 ∈ sys.get_trail, ∀ w2 : TerminalRenderer.CellWrite,
        TerminalRenderer.draw_point sin cos ofInt toInt width height sys.get_type
            angle_x angle_y zoom_pop q2 = some w2 →
        w2.sy = sy ∧ w2.sx = sx → q2.age ≤ q.age) :
    TerminalRenderer.cell_after
        (TerminalRenderer.draw_writes sin cos ofInt toInt width height sys
          angle_x angle_y zoom_pop) sy sx = some w := by
  have hpw : sys.trail.Pairwise (fun a b => a.age < b.age) := by
    rw [hsys]
    exact ChaosSystem.updates_ages_increasing sin pow s0 dts
  unfold ChaosSystem.get_trail at hq hold
  obtain ⟨l1, l2, hl⟩ := List.append_of_mem hq
  unfold TerminalRenderer.cell_after TerminalRenderer.draw_writes ChaosSystem.get_trail
  rw [hl] at hpw hold ⊢
  have hafter : ∀ q2 ∈ l2, q.age < q2.age :=
    (List.pairwise_cons.1 (List.pairwise_append.1 hpw).2.1).1
  refine getLast_filter_filterMap _ _ l1 l2 q w hw (by simpa using hcell) ?_
  intro q2 hq2 w2 hw2
  by_contra hc
  have hle := hold q2 (by simp [hq2]) w2 hw2 (by simpa using hc)
  have := hafter q2 hq2
  omega

/-- C6 amended, at a concrete input: 100 particles at the seed, all written to row 11,
column 40; the cell ends up with the write of the particle of age 100. -/
theorem draw_oldest_wins_witness :
    TerminalRenderer.cell_after
        (TerminalRenderer.draw_writes Real.sin Real.cos (fun n : Int => (n : ℝ))
          trunc_toward_zero 80 24
          (ChaosSystem.updates Real.sin (fun x y : ℝ => x ^ y)
            (ChaosSystem.init ChaosType.THOMAS).reset (List.replicate 100 0)) 0 0 1) 11 40
      = some { sy := 11, sx := 40, r := 60, g := 220, b := 255, c := '#' } := by
  have htrail := (ChaosSystem.updates_zero_dt (fun x y : ℝ => x ^ y) ChaosType.THOMAS 100
    (by omega)).2
  have hreset : (ChaosSystem.init ChaosType.THOMAS : ChaosSystem ℝ).reset
      = ChaosSystem.init ChaosType.THOMAS := rfl
  refine draw_oldest_wins Real.sin Real.cos (fun x y : ℝ => x ^ y) (fun n : Int => (n : ℝ))
    trunc_toward_zero (ChaosSystem.init ChaosType.THOMAS) (List.replicate 100 0) _ rfl
    80 24 0 0 1 11 40 ⟨⟨0.1, 0.1, 0.1⟩, 100⟩ _ ?_ ?_ ⟨rfl, rfl⟩ ?_
  · rw [hreset, ChaosSystem.get_trail, htrail, List.mem_map]
    exact ⟨99, by simp, by norm_num⟩
  · rw [hreset, ChaosSystem.get_type, ChaosSystem.updates_type]
    have e : (ChaosSystem.init ChaosType.THOMAS : ChaosSystem ℝ).type = ChaosType.THOMAS := rfl
    rw [e, TerminalRenderer.draw_point_seed]
    rfl
  · intro q2 hq2 w2 _ _
    rw [hreset, ChaosSystem.get_trail, htrail, List.mem_map] at hq2
    obtain ⟨i, hi, rfl⟩ := hq2
    have hi2 : i < 100 := by simpa using hi
    simp only
    omega

end AttractorCpp

namespace AttractorC

/-- C7. Palette thresholds of attractor.c: the glyph is `@` exactly for `age < 100`, the
colour is white exactly for `age < 100`, ages 99 and 100 differ in glyph and in colour, and
the colour ramp is the five-level step function with breakpoints 100, 500, 1500, 3000. -/
theorem palette_thresholds (age : Int) :
    (get_density_char age = '@' ↔ age < 100)
    ∧ (get_glow_color age = (255, 255, 255) ↔ age < 100)
    ∧ get_density_char 99 ≠ get_density_char 100
    ∧ get_glow_color 99 ≠ get_glow_color 100
    ∧ (100 ≤ age → age < 500 → get_glow_color age = (100, 220, 255))
    ∧ (500 ≤ age → age < 1500 → get_glow_color age = (0, 120, 220))
    ∧ (1500 ≤ age → age < 3000 → get_glow_color age = (0, 60, 130))
    ∧ (3000 ≤ age → get_glow_color age = (40, 40, 60)) := by
  refine ⟨?_, ?_, by decide, by decide, ?_, ?_, ?_, ?_⟩
  · unfold get_density_char chars
    constructor
    · intro h
      by_contra hc
      rw [if_neg hc] at h
      split_ifs at h <;> revert h <;> decide
    · intro h
      rw [if_pos h]
      decide
  · unfold get_glow_color
    constructor
    · intro h
      by_contra hc
      rw [if_neg hc] at h
      split_ifs at h <;> revert h <;> decide
    · intro h
      rw [if_pos h]
  · intro h1 h2
    unfold get_glow_color
    rw [if_neg (by omega), if_pos h2]
  · intro h1 h2
    unfold get_glow_color
    rw [if_neg (by omega), if_neg (by omega), if_pos h2]
  · intro h1 h2
    unfold get_glow_color
    rw [if_neg (by omega), if_neg (by omega), if_neg (by omega), if_pos h2]
  · intro h1
    unfold get_glow_color
    rw [if_neg (by omega), if_neg (by omega), if_neg (by omega), if_neg (by omega)]

/-- C7, at concrete inputs: ages 99, 100, 499, 500, 1499, 1500, 2999 and 3000. -/
theorem palette_thresholds_witness :
    get_density_char 99 = '@' ∧ get_glow_color 99 = (255, 255, 255)
    ∧ get_glow_color 100 = (100, 220, 255) ∧ get_glow_color 499 = (100, 220, 255)
    ∧ get_glow_color 500 = (0, 120, 220) ∧ get_glow_color 1499 = (0, 120, 220)
    ∧ get_glow_color 1500 = (0, 60, 130) ∧ get_glow_color 2999 = (0, 60, 130)
    ∧ get_glow_color 3000 = (40, 40, 60) :=
  ⟨(palette_thresholds 99).1.2 (by decide), (palette_thresholds 99).2.1.2 (by decide),
   (palette_thresholds 100).2.2.2.2.1 (by decide) (by decide),
   (palette_thresholds 499).2.2.2.2.1 (by decide) (by decide),
   (palette_thresholds 500).2.2.2.2.2.1 (by decide) (by decide),
   (palette_thresholds 1499).2.2.2.2.2.1 (by decide) (by decide),
   (palette_thresholds 1500).2.2.2.2.2.2.1 (by decide) (by decide),
   (palette_thresholds 2999).2.2.2.2.2.2.1 (by decide) (by decide),
   (palette_thresholds 3000).2.2.2.2.2.2.2 (by decide)⟩

/-- C8 as stated fails: age 400 lies in `[100, 500)` but its glyph is not that of age 100. -/
theorem glyph_breakpoint_500_fails :
    ¬ (∀ age : Int, 100 ≤ age → age < 500 → get_density_char age = get_density_char 100) := by
  intro h
  exact absurd (h 400 (by decide) (by decide)) (by decide)

/-- C8, amended: the second breakpoint of the glyph ramp is 400.  For `100 ≤ age < 400` the
glyph is that of age 100, which differs from the glyphs of ages 99, 400 and 500; for
`400 ≤ age < 500` the glyph is already that of age 500, which is `*`. -/
theorem glyph_breakpoint_400 (age : Int) :
    (100 ≤ age → age < 400 → get_density_char age = get_density_char 100)
    ∧ (400 ≤ age → age < 500 → get_density_char age = get_density_char 500)
    ∧ get_density_char 100 = '#'
    ∧ get_density_char 100 ≠ get_density_char 99
    ∧ get_density_char 100 ≠ get_density_char 400
    ∧ get_density_char 100 ≠ get_density_char 500
    ∧ get_density_char 500 = '*' := by
  refine ⟨?_, ?_, by decide, by decide, by decide, by decide, by decide⟩
  · intro h1 h2
    unfold get_density_char
    rw [if_neg (by omega), if_pos h2]
    rfl
  · intro h1 h2
    unfold get_density_char
    rw [if_neg (by omega), if_neg (by omega), if_pos (by omega)]
    rfl

/-- C8 amended, at concrete inputs: ages 399 and 400. -/
theorem glyph_breakpoint_400_witness :
    get_density_char 399 = get_density_char 100
    ∧ get_density_char 400 = get_density_char 500 :=
  ⟨(glyph_breakpoint_400 399).1 (by decide) (by decide),
   (glyph_breakpoint_400 400).2.1 (by decide) (by decide)⟩

end AttractorC

/-- One coordinate of the Thomas Euler step with `b = 0.19`, `dt = 0.05` stays within
`1 / 0.19` when the sine term is within 1. -/
theorem thomas_coord_bound (x s : ℝ) (hx : |x| ≤ 1 / 0.19) (hs : |s| ≤ 1) :
    |x + (s - 0.19 * x) * 0.05| ≤ 1 / 0.19 := by
  rw [abs_le] at hx hs ⊢
  norm_num at hx ⊢
  constructor <;> linarith [hx.1, hx.2, hs.1, hs.2]

/-- C9 as stated fails: the step from `(0.1, 0, 0)` does not give `0.1 + sin(0)·0.05` in the
first coordinate, neither in attractor.c nor in attractor.cpp. -/
theorem thomas_step_claimed_value_fails :
    AttractorC.update_math Real.sin 0 (⟨0.1, 0, 0⟩ : Vec3 ℝ)
        ≠ ⟨0.1 + Real.sin 0 * 0.05, 0 + Real.sin 0 * 0.05, 0 + Real.sin 0.1 * 0.05⟩
    ∧ (AttractorCpp.ChaosSystem.update Real.sin (fun x y : ℝ => x ^ y)
          ⟨AttractorCpp.ChaosType.THOMAS, ⟨0.1, 0, 0⟩, []⟩ 0.05).p
        ≠ ⟨0.1 + Real.sin 0 * 0.05, 0 + Real.sin 0 * 0.05, 0 + Real.sin 0.1 * 0.05⟩ := by
  constructor
  · intro h
    have hx := congrArg Vec3.x h
    simp [AttractorC.update_math, AttractorC.THOMAS_B, AttractorC.DT] at hx
    norm_num at hx
  · intro h
    have hx := congrArg Vec3.x h
    rw [AttractorCpp.ChaosSystem.update_thomas_p _ _ _ rfl] at hx
    simp at hx
    norm_num at hx

/-- C9, amended: one Euler step of the Thomas system from `(0.1, 0, 0)` with `dt = 0.05`
over the reals yields `(0.1 + (sin 0 - 0.19·0.1)·0.05, 0 + (sin 0 - 0.19·0)·0.05,
0 + (sin 0.1 - 0.19·0)·0.05) = (0.09905, 0, sin(0.1)·0.05)`, in attractor.c and in
attractor.cpp alike. -/
theorem thomas_step_value (pow : ℝ → ℝ → ℝ) (trail : List (AttractorCpp.Particle ℝ)) :
    AttractorC.update_math Real.sin 0 (⟨0.1, 0, 0⟩ : Vec3 ℝ)
        = ⟨0.1 + (Real.sin 0 - 0.19 * 0.1) * 0.05, 0 + (Real.sin 0 - 0.19 * 0) * 0.05,
           0 + (Real.sin 0.1 - 0.19 * 0) * 0.05⟩
    ∧ AttractorC.update_math Real.sin 0 (⟨0.1, 0, 0⟩ : Vec3 ℝ)
        = ⟨0.09905, 0, Real.sin 0.1 * 0.05⟩
    ∧ (AttractorCpp.ChaosSystem.update Real.sin pow
          ⟨AttractorCpp.ChaosType.THOMAS, ⟨0.1, 0, 0⟩, trail⟩ 0.05).p
        = ⟨0.09905, 0, Real.sin 0.1 * 0.05⟩ := by
  refine ⟨?_, ?_, ?_⟩
  · simp [AttractorC.update_math, AttractorC.THOMAS_B, AttractorC.DT]
  · simp [AttractorC.update_math, AttractorC.THOMAS_B, AttractorC.DT]
    norm_num
  · rw [AttractorCpp.ChaosSystem.update_thomas_p _ _ _ rfl]
    simp
    norm_num

/-- C10. Thomas orbit over the reals: from the reset seed `(0.1, 0.1, 0.1)`, after any number
`n` of Euler steps with `b = 0.19` and `dt = 0.05`, each coordinate has absolute value at
most `1 / 0.19`, in attractor.cpp (`set_type(THOMAS)` then `n` calls of `update(0.05)`) and
in attractor.c (`n` iterations of the update with `current_system == 0`). -/
theorem thomas_orbit_bounded (n : Nat) (pow : ℝ → ℝ → ℝ) (s0 : AttractorCpp.ChaosSystem ℝ) :
    (|(AttractorCpp.ChaosSystem.updates Real.sin pow
          (s0.set_type AttractorCpp.ChaosType.THOMAS) (List.replicate n 0.05)).p.x| ≤ 1 / 0.19
      ∧ |(AttractorCpp.ChaosSystem.updates Real.sin pow
          (s0.set_type AttractorCpp.ChaosType.THOMAS) (List.replicate n 0.05)).p.y| ≤ 1 / 0.19
      ∧ |(AttractorCpp.ChaosSystem.updates Real.sin pow
          (s0.set_type AttractorCpp.ChaosType.THOMAS) (List.replicate n 0.05)).p.z| ≤ 1 / 0.19)
    ∧ (|(AttractorC.iterate_math Real.sin 0 (⟨0.1, 0.1, 0.1⟩ : Vec3 ℝ) n).x| ≤ 1 / 0.19
      ∧ |(AttractorC.iterate_math Real.sin 0 (⟨0.1, 0.1, 0.1⟩ : Vec3 ℝ) n).y| ≤ 1 / 0.19
      ∧ |(AttractorC.iterate_math Real.sin 0 (⟨0.1, 0.1, 0.1⟩ : Vec3 ℝ) n).z| ≤ 1 / 0.19) := by
  have hseed : |(0.1 : ℝ)| ≤ 1 / 0.19 := by
    rw [abs_le]
    constructor <;> norm_num
  constructor
  · induction n with
    | zero => exact ⟨hseed, hseed, hseed⟩
    | succ n ih =>
      obtain ⟨hx, hy, hz⟩ := ih
      rw [AttractorCpp.ChaosSystem.updates_replicate_succ,
        AttractorCpp.ChaosSystem.update_thomas_p _ _ _
          (by rw [AttractorCpp.ChaosSystem.updates_type]; rfl)]
      exact ⟨thomas_coord_bound _ _ hx (Real.abs_sin_le_one _),
        thomas_coord_bound _ _ hy (Real.abs_sin_le_one _),
        thomas_coord_bound _ _ hz (Real.abs_sin_le_one _)⟩
  · induction n with
    | zero => exact ⟨hseed, hseed, hseed⟩
    | succ n ih =>
      obtain ⟨hx, hy, hz⟩ := ih
      simp only [AttractorC.iterate_math, AttractorC.update_math, AttractorC.THOMAS_B,
        AttractorC.DT, if_true, if_pos, if_neg, zero_ne_one]
      exact ⟨thomas_coord_bound _ _ hx (Real.abs_sin_le_one _),
        thomas_coord_bound _ _ hy (Real.abs_sin_le_one _),
        thomas_coord_bound _ _ hz (Real.abs_sin_le_one _)⟩

namespace AttractorC

theorem odd_over_pow2_ne_zero (k : Nat) (q : ℝ) (h : odd_over_pow2 k q) : q ≠ 0 := by
  obtain ⟨m, d, hm, _, he⟩ := h
  intro hq
  rw [hq, zero_mul] at he
  have hm0 : m = 0 := by exact_mod_cast he.symm
  rw [hm0] at hm
  exact absurd hm (by decide)

theorem int_over_pow2_of_odd (k : Nat) (q : ℝ) (h : odd_over_pow2 k q) : int_over_pow2 k q := by
  obtain ⟨m, d, _, hd, he⟩ := h
  exact ⟨m, d, hd, he⟩

theorem int_over_pow2_mono (j k : Nat) (q : ℝ) (hjk : j ≤ k) (h : int_over_pow2 j q) :
    int_over_pow2 k q := by
  obtain ⟨m, d, hd, he⟩ := h
  obtain ⟨e, rfl⟩ := Nat.exists_eq_add_of_le hjk
  refine ⟨m * 2 ^ e, d, hd, ?_⟩
  push_cast
  rw [← he, pow_add]
  ring

theorem int_over_pow2_add (k : Nat) (q r : ℝ) (hq : int_over_pow2 k q)
    (hr : int_over_pow2 k r) : int_over_pow2 k (q + r) := by
  obtain ⟨m1, d1, hd1, he1⟩ := hq
  obtain ⟨m2, d2, hd2, he2⟩ := hr
  refine ⟨m1 * d2 + m2 * d1, d1 * d2, hd1.mul hd2, ?_⟩
  push_cast
  rw [← he1, ← he2]
  ring

/-- An integer multiple keeps the power of two in the denominator. -/
theorem int_over_pow2_mul_int (k : Nat) (c : Int) (q : ℝ) (hq : int_over_pow2 k q) :
    int_over_pow2 k ((c : ℝ) * q) := by
  obtain ⟨m, d, hd, he⟩ := hq
  refine ⟨c * m, d, hd, ?_⟩
  push_cast
  rw [← he]
  ring

/-- Adding a term with a smaller power of two in the denominator keeps the level. -/
theorem odd_over_pow2_add (j k : Nat) (q r : ℝ) (hjk : j < k) (hq : odd_over_pow2 k q)
    (hr : int_over_pow2 j r) : odd_over_pow2 k (q + r) := by
  obtain ⟨e, rfl⟩ := Nat.exists_eq_add_of_lt hjk
  obtain ⟨m1, d1, hm1, hd1, he1⟩ := hq
  obtain ⟨m2, d2, hd2, he2⟩ := hr
  refine ⟨m1 * d2 + m2 * d1 * 2 ^ (e + 1), d1 * d2, ?_, hd1.mul hd2, ?_⟩
  · apply Odd.add_even (hm1.mul hd2)
    exact Even.mul_left ((Int.even_pow.2 ⟨by decide, by omega⟩)) _
  · push_cast
    rw [← he1, ← he2]
    have hp : (2 : ℝ) ^ (j + e + 1) = 2 ^ j * 2 ^ (e + 1) := by rw [add_assoc, pow_add]
    rw [hp]
    ring

theorem odd_over_pow2_mul (j k : Nat) (q r : ℝ) (hq : odd_over_pow2 j q)
    (hr : odd_over_pow2 k r) : odd_over_pow2 (j + k) (q * r) := by
  obtain ⟨m1, d1, hm1, hd1, he1⟩ := hq
  obtain ⟨m2, d2, hm2, hd2, he2⟩ := hr
  refine ⟨m1 * m2, d1 * d2, hm1.mul hm2, hd1.mul hd2, ?_⟩
  push_cast
  rw [← he1, ← he2, pow_add]
  ring

theorem odd_over_pow2_neg (k : Nat) (q : ℝ) (hq : odd_over_pow2 k q) :
    odd_over_pow2 k (-q) := by
  obtain ⟨m, d, hm, hd, he⟩ := hq
  refine ⟨-m, d, hm.neg, hd, ?_⟩
  push_cast
  rw [← he]
  ring

/-- Multiplying by `2 ^ e` times an odd integer lowers the level by `e`. -/
theorem odd_over_pow2_mul_const (k e : Nat) (c : Int) (q : ℝ) (hc : Odd c) (hek : e ≤ k)
    (hq : odd_over_pow2 k q) : odd_over_pow2 (k - e) ((2 : ℝ) ^ e * (c : ℝ) * q) := by
  obtain ⟨m, d, hm, hd, he⟩ := hq
  obtain ⟨f, rfl⟩ := Nat.exists_eq_add_of_le hek
  refine ⟨c * m, d, hc.mul hm, hd, ?_⟩
  have hf : e + f - e = f := by omega
  push_cast
  rw [hf, ← he, pow_add]
  ring

/-- Dividing by `10 ^ e` raises the level by `e`. -/
theorem odd_over_pow2_div_pow10 (k e : Nat) (q : ℝ) (hq : odd_over_pow2 k q) :
    odd_over_pow2 (k + e) (q / (10 : ℝ) ^ e) := by
  obtain ⟨m, d, hm, hd, he⟩ := hq
  refine ⟨m, 5 ^ e * d, hm, (Odd.pow (by decide)).mul hd, ?_⟩
  push_cast
  rw [← he]
  have h10 : (10 : ℝ) ^ e = 5 ^ e * 2 ^ e := by
    rw [← mul_pow]
    norm_num
  rw [h10, pow_add]
  have h5 : (5 : ℝ) ^ e ≠ 0 := by positivity
  have h2 : (2 : ℝ) ^ e ≠ 0 := by positivity
  field_simp
  ring

/-- One Lorenz step of attractor.c on the levels: when `x`, `y`, `z` are odd over
`2 ^ a`, `2 ^ b`, `2 ^ c` (times odd numbers) with `a < b < a + c`, the next `x`, `y`, `z`
are odd over `2 ^ (b + 1)`, `2 ^ (a + c + 2)` and `2 ^ (max (c - 1) (a + b - 3) + 5)`. -/
theorem lorenz_level_step (x y z : ℝ) (a b c : Nat)
    (ha : 1 ≤ a) (hab : a < b) (hbc : b < a + c) (hc : 2 ≤ c) (hs : 3 < a + b)
    (hne : c + 2 ≠ a + b)
    (hx : odd_over_pow2 a x) (hy : odd_over_pow2 b y) (hz : odd_over_pow2 c z) :
    odd_over_pow2 (b + 1) (update_math Real.sin 1 ⟨x, y, z⟩).x
    ∧ odd_over_pow2 (a + c + 2) (update_math Real.sin 1 ⟨x, y, z⟩).y
    ∧ odd_over_pow2 (max (c - 1) (a + b - 3) + 5) (update_math Real.sin 1 ⟨x, y, z⟩).z := by
  have _ := ha
  have ex : (update_math Real.sin 1 ⟨x, y, z⟩).x = (y + ((9 : Int) : ℝ) * x) / 10 ^ 1 := by
    simp [update_math, LORENZ_S]
    norm_num
    ring
  have ey : (update_math Real.sin 1 ⟨x, y, z⟩).y
      = (-(x * z) + (((99 : Int) : ℝ) * y + ((28 : Int) : ℝ) * x)) / 10 ^ 2 := by
    simp [update_math, LORENZ_R]
    norm_num
    ring
  have ez : (update_math Real.sin 1 ⟨x, y, z⟩).z
      = ((2 : ℝ) ^ 1 * ((48667 : Int) : ℝ) * z + (2 : ℝ) ^ 3 * ((125 : Int) : ℝ) * (x * y))
          / 10 ^ 5 := by
    simp [update_math, LORENZ_B]
    norm_num
    ring
  have ix := int_over_pow2_of_odd a x hx
  have iy := int_over_pow2_of_odd b y hy
  refine ⟨?_, ?_, ?_⟩
  · rw [ex]
    exact odd_over_pow2_div_pow10 b 1 _
      (odd_over_pow2_add a b _ _ hab hy (int_over_pow2_mul_int a 9 x ix))
  · rw [ey]
    refine odd_over_pow2_div_pow10 (a + c) 2 _ (odd_over_pow2_add b (a + c) _ _ hbc
      (odd_over_pow2_neg _ _ (odd_over_pow2_mul a c x z hx hz)) ?_)
    exact int_over_pow2_add b _ _ (int_over_pow2_mul_int b 99 y iy)
      (int_over_pow2_mono a b _ (le_of_lt hab) (int_over_pow2_mul_int a 28 x ix))
  · rw [ez]
    have t1 : odd_over_pow2 (c - 1) ((2 : ℝ) ^ 1 * ((48667 : Int) : ℝ) * z) :=
      odd_over_pow2_mul_const c 1 48667 z (by decide) (by omega) hz
    have t2 : odd_over_pow2 (a + b - 3) ((2 : ℝ) ^ 3 * ((125 : Int) : ℝ) * (x * y)) :=
      odd_over_pow2_mul_const (a + b) 3 125 (x * y) (by decide) (by omega)
        (odd_over_pow2_mul a b x y hx hy)
    apply odd_over_pow2_div_pow10
    rcases Nat.lt_or_gt_of_ne (show c - 1 ≠ a + b - 3 by omega) with h | h
    · rw [max_eq_right (le_of_lt h), add_comm ((2 : ℝ) ^ 1 * ((48667 : Int) : ℝ) * z)]
      exact odd_over_pow2_add _ _ _ _ h t2 (int_over_pow2_of_odd _ _ t1)
    · rw [max_eq_left (le_of_lt h)]
      exact odd_over_pow2_add _ _ _ _ h t1 (int_over_pow2_of_odd _ _ t2)

/-- Lorenz orbit of attractor.c over the reals: after `k + 1` steps from the seed the three
coordinates are odd integers over odd multiples of powers of two, with levels `a < b < a + c`
and `a ≥ 1`. -/
theorem lorenz_orbit_levels (k : Nat) :
    ∃ a b c : Nat, 1 ≤ a ∧ a < b ∧ b < a + c ∧ 2 ≤ c ∧ 3 < a + b ∧ c + 2 ≠ a + b
      ∧ odd_over_pow2 a (iterate_math Real.sin 1 (⟨0.1, 0.1, 0.1⟩ : Vec3 ℝ) (k + 1)).x
      ∧ odd_over_pow2 b (iterate_math Real.sin 1 (⟨0.1, 0.1, 0.1⟩ : Vec3 ℝ) (k + 1)).y
      ∧ odd_over_pow2 c (iterate_math Real.sin 1 (⟨0.1, 0.1, 0.1⟩ : Vec3 ℝ) (k + 1)).z := by
  induction k with
  | zero =>
    refine ⟨1, 4, 5, by omega, by omega, by omega, by omega, by omega, by omega, ?_, ?_, ?_⟩
    · refine ⟨1, 5, by decide, by decide, ?_⟩
      simp [iterate_math, update_math, LORENZ_S]
      norm_num
    · refine ⟨1269, 625, by decide, by decide, ?_⟩
      simp [iterate_math, update_math, LORENZ_R]
      norm_num
    · refine ⟨48717, 15625, by decide, by decide, ?_⟩
      simp [iterate_math, update_math, LORENZ_B]
      norm_num
  | succ k ih =>
    obtain ⟨a, b, c, ha, hab, hbc, hc, hs, hne, hx, hy, hz⟩ := ih
    have h := lorenz_level_step _ _ _ a b c ha hab hbc hc hs hne hx hy hz
    refine ⟨b + 1, a + c + 2, max (c - 1) (a + b - 3) + 5, by omega, by omega, ?_, by omega,
      by omega, ?_, ?_⟩
    · rcases le_total (c - 1) (a + b - 3) with h1 | h1
      · rw [max_eq_right h1]; omega
      · rw [max_eq_left h1]; omega
    · rcases le_total (c - 1) (a + b - 3) with h1 | h1
      · rw [max_eq_right h1]; omega
      · rw [max_eq_left h1]; omega
    · exact h

/-- No point of the Lorenz orbit of attractor.c over the reals has `x = 0`. -/
theorem lorenz_orbit_x_ne_zero (k : Nat) :
    (iterate_math Real.sin 1 (⟨0.1, 0.1, 0.1⟩ : Vec3 ℝ) k).x ≠ 0 := by
  cases k with
  | zero =>
    simp only [iterate_math]
    norm_num
  | succ k =>
    obtain ⟨a, _, _, _, _, _, _, _, _, hx, _, _⟩ := lorenz_orbit_levels k
    exact odd_over_pow2_ne_zero a _ hx

/-- Thomas orbit of attractor.c over the reals: from the seed the three coordinates stay
equal, positive and at most `π`. -/
theorem thomas_orbit_diagonal (k : Nat) :
    (iterate_math Real.sin 0 (⟨0.1, 0.1, 0.1⟩ : Vec3 ℝ) k).y
        = (iterate_math Real.sin 0 (⟨0.1, 0.1, 0.1⟩ : Vec3 ℝ) k).x
    ∧ (iterate_math Real.sin 0 (⟨0.1, 0.1, 0.1⟩ : Vec3 ℝ) k).z
        = (iterate_math Real.sin 0 (⟨0.1, 0.1, 0.1⟩ : Vec3 ℝ) k).x
    ∧ 0 < (iterate_math Real.sin 0 (⟨0.1, 0.1, 0.1⟩ : Vec3 ℝ) k).x
    ∧ (iterate_math Real.sin 0 (⟨0.1, 0.1, 0.1⟩ : Vec3 ℝ) k).x ≤ Real.pi := by
  induction k with
  | zero =>
    refine ⟨rfl, rfl, ?_, ?_⟩
    · simp only [iterate_math]; norm_num
    · simp only [iterate_math]
      have := Real.pi_gt_three
      norm_num
      linarith
  | succ k ih =>
    obtain ⟨hy, hz, hpos, hle⟩ := ih
    have hsin0 : 0 ≤ Real.sin (iterate_math Real.sin 0 (⟨0.1, 0.1, 0.1⟩ : Vec3 ℝ) k).x :=
      Real.sin_nonneg_of_nonneg_of_le_pi (le_of_lt hpos) hle
    have hsin1 : Real.sin (iterate_math Real.sin 0 (⟨0.1, 0.1, 0.1⟩ : Vec3 ℝ) k).x
        ≤ Real.pi - (iterate_math Real.sin 0 (⟨0.1, 0.1, 0.1⟩ : Vec3 ℝ) k).x := by
      rw [← Real.sin_pi_sub]
      exact Real.sin_le (by linarith)
    have hpi := Real.pi_gt_three
    simp only [iterate_math, update_math, THOMAS_B, DT, if_true, if_neg, zero_ne_one, hy, hz]
    refine ⟨trivial, trivial, ?_, ?_⟩ <;> norm_num <;> nlinarith

/-- No point of the Thomas orbit of attractor.c over the reals has `x = 0`. -/
theorem thomas_orbit_x_ne_zero (k : Nat) :
    (iterate_math Real.sin 0 (⟨0.1, 0.1, 0.1⟩ : Vec3 ℝ) k).x ≠ 0 :=
  ne_of_gt (thomas_orbit_diagonal k).2.2.1

end AttractorC

namespace AttractorC

/-- No stored point has `x = 0`: the orbit of either system from the seed, over the reals. -/
theorem orbit_x_ne_zero (cs : Int) (hcs : cs = 0 ∨ cs = 1) (k : Nat) :
    (iterate_math Real.sin cs (⟨0.1, 0.1, 0.1⟩ : Vec3 ℝ) k).x ≠ 0 := by
  rcases hcs with h | h
  · rw [h]; exact thomas_orbit_x_ne_zero k
  · rw [h]; exact lorenz_orbit_x_ne_zero k

theorem cmod_frame (n : Nat) : cmod (n : Int) 1000 = 0 ↔ n % 1000 = 0 := by
  unfold cmod
  rw [Int.tmod_eq_emod (by omega) (by decide)]
  omega

/-- The state of the main loop after `n` iterations, over the reals: the system is 0 or 1,
the head is in range, and the ring is the zeroed array followed by the pushes of the orbit
points `1, ..., pushes_since_switch n` of the active system, the last of which is `p`. -/
theorem main_loop_inv (n : Nat) :
    (main_loop Real.sin n).frame = n
    ∧ ((main_loop Real.sin n).current_system = 0 ∨ (main_loop Real.sin n).current_system = 1)
    ∧ ∃ head0 : Int, (0 ≤ head0 ∧ head0 < 4000)
        ∧ (main_loop Real.sin n).ring
          = push_all ⟨zero_trail, head0⟩
              ((List.range (pushes_since_switch n)).map
                (fun j : Nat => iterate_math Real.sin (main_loop Real.sin n).current_system
                  (⟨0.1, 0.1, 0.1⟩ : Vec3 ℝ) (j + 1)))
        ∧ (1 ≤ n → (main_loop Real.sin n).p
            = iterate_math Real.sin (main_loop Real.sin n).current_system
                (⟨0.1, 0.1, 0.1⟩ : Vec3 ℝ) (pushes_since_switch n)) := by
  induction n with
  | zero =>
    refine ⟨rfl, Or.inl rfl, 0, by decide, rfl, fun h => absurd h (by decide)⟩
  | succ n ih =>
    obtain ⟨hframe, hcs, head0, hh0, hring, hp⟩ := ih
    have hhead := (push_all_inv head0 hh0
      ((List.range (pushes_since_switch n)).map
        (fun j : Nat => iterate_math Real.sin (main_loop Real.sin n).current_system
          (⟨0.1, 0.1, 0.1⟩ : Vec3 ℝ) (j + 1)))).1
    rw [← hring] at hhead
    by_cases hsw : n % 1000 = 0
    · have hc : cmod (main_loop Real.sin n).frame 1000 = 0 := by
        rw [hframe]; exact (cmod_frame n).2 hsw
      have hk : pushes_since_switch (n + 1) = 1 := by
        unfold pushes_since_switch
        simp [hsw]
      have hstep : main_loop Real.sin (n + 1)
          = { frame := (main_loop Real.sin n).frame + 1
              current_system := cmod ((main_loop Real.sin n).current_system + 1) 2
              p := update_math Real.sin (cmod ((main_loop Real.sin n).current_system + 1) 2)
                    ⟨0.1, 0.1, 0.1⟩
              ring := push ⟨zero_trail, (main_loop Real.sin n).ring.head⟩
                (update_math Real.sin (cmod ((main_loop Real.sin n).current_system + 1) 2)
                    ⟨0.1, 0.1, 0.1⟩) } := by
        simp only [main_loop, loop_step, hc, if_true, switch_system]
      rw [hstep, hk]
      refine ⟨by simp only [hframe]; push_cast; rfl, ?_, (main_loop Real.sin n).ring.head,
        hhead, rfl, fun _ => rfl⟩
      rcases hcs with h | h
      · right; simp only [h]; decide
      · left; simp only [h]; decide
    · have hc : ¬ cmod (main_loop Real.sin n).frame 1000 = 0 := by
        rw [hframe]; exact fun h => hsw ((cmod_frame n).1 h)
      have hn1 : 1 ≤ n := by
        rcases Nat.eq_zero_or_pos n with h | h
        · rw [h] at hsw; exact absurd rfl hsw
        · exact h
      have hk : pushes_since_switch (n + 1) = pushes_since_switch n + 1 := by
        unfold pushes_since_switch
        rw [if_neg (by omega), if_neg (by omega)]
        omega
      have hstep : main_loop Real.sin (n + 1)
          = { frame := (main_loop Real.sin n).frame + 1
              current_system := (main_loop Real.sin n).current_system
              p := update_math Real.sin (main_loop Real.sin n).current_system
                    (main_loop Real.sin n).p
              ring := push (main_loop Real.sin n).ring
                (update_math Real.sin (main_loop Real.sin n).current_system
                    (main_loop Real.sin n).p) } := by
        simp only [main_loop, loop_step, hc, if_false]
      rw [hstep, hk]
      refine ⟨by simp only [hframe]; push_cast; rfl, hcs, head0, hh0, ?_, fun _ => ?_⟩
      · simp only
        rw [List.range_succ, List.map_append, List.map_singleton, push_all_append, ← hring,
          hp hn1]
        rfl
      · simp only
        rw [hp hn1]
        rfl

/-- The guard of the render loop, for any array contents: the slot of age `i` is skipped
exactly when the stored `x` coordinate is 0.  A zero slot is skipped; a slot with `x ≠ 0` is
projected and offered to the compositor, which records age `i` and its glyph when the cell
is in the grid and holds a larger age. -/
theorem skip_iff_x_zero {α : Type} [Zero α] [DecidableEq α] (trail : Int → Vec3 α)
    (head i : Int) (hi : 0 ≤ i ∧ i < 4000) :
    ((∀ (proj : Vec3 α → Int × Int) (width height : Int) (b : Buffers),
          render_point proj width height trail head b i = b)
        ↔ (trail (read_idx head i)).x = 0)
    ∧ (trail (read_idx head i) = ⟨0, 0, 0⟩ →
        ∀ (proj : Vec3 α → Int × Int) (width height : Int) (b : Buffers),
          render_point proj width height trail head b i = b)
    ∧ ((trail (read_idx head i)).x ≠ 0 →
        ∀ (proj : Vec3 α → Int × Int) (width height : Int) (b : Buffers),
          in_grid width height (proj (trail (read_idx head i))).2
            (proj (trail (read_idx head i))).1 →
          i < b.out_ages (proj (trail (read_idx head i))).2 (proj (trail (read_idx head i))).1 →
          (render_point proj width height trail head b i).out_ages
              (proj (trail (read_idx head i))).2 (proj (trail (read_idx head i))).1 = i
          ∧ (render_point proj width height trail head b i).out_chars
              (proj (trail (read_idx head i))).2 (proj (trail (read_idx head i))).1
            = get_density_char i) := by
  have hskip : (trail (read_idx head i)).x = 0 →
      ∀ (proj : Vec3 α → Int × Int) (width height : Int) (b : Buffers),
        render_point proj width height trail head b i = b := by
    intro hx proj width height b
    unfold render_point
    simp only [hx, if_true]
  have hoffer : (trail (read_idx head i)).x ≠ 0 →
      ∀ (proj : Vec3 α → Int × Int) (width height : Int) (b : Buffers),
        in_grid width height (proj (trail (read_idx head i))).2
          (proj (trail (read_idx head i))).1 →
        i < b.out_ages (proj (trail (read_idx head i))).2 (proj (trail (read_idx head i))).1 →
        (render_point proj width height trail head b i).out_ages
            (proj (trail (read_idx head i))).2 (proj (trail (read_idx head i))).1 = i
        ∧ (render_point proj width height trail head b i).out_chars
            (proj (trail (read_idx head i))).2 (proj (trail (read_idx head i))).1
          = get_density_char i := by
    intro hx proj width height b hg hlt
    exact (render_point_cell proj width height trail head b i _ _).1 ⟨hg, ⟨hx, rfl, rfl⟩, hlt⟩
  refine ⟨⟨fun hall => ?_, hskip⟩, fun hz => hskip (by rw [hz]), hoffer⟩
  by_contra hx
  have h1 := (hoffer hx (fun _ => ((0 : Int), (0 : Int))) 1 1 clear_buffers
    (by unfold in_grid; simp) (by simp only [clear_buffers]; omega)).1
  rw [hall] at h1
  simp only [clear_buffers] at h1
  omega

/-- The slots of the ring after `n` iterations of the main loop, over the reals: the slot of
age `i` below the number of pushes since the switch holds the orbit point that many steps
back, every other slot is still the zero vector of the `memset`. -/
theorem loop_slot (n i : Nat) (hi : i < 4000) :
    (i < pushes_since_switch n →
        (main_loop Real.sin n).ring.trail (read_idx (main_loop Real.sin n).ring.head (i : Int))
          = iterate_math Real.sin (main_loop Real.sin n).current_system
              (⟨0.1, 0.1, 0.1⟩ : Vec3 ℝ) (pushes_since_switch n - i))
    ∧ (pushes_since_switch n ≤ i →
        (main_loop Real.sin n).ring.trail (read_idx (main_loop Real.sin n).ring.head (i : Int))
          = ⟨0, 0, 0⟩) := by
  obtain ⟨_, _, head0, hh0, hring, _⟩ := main_loop_inv n
  have hinv := (push_all_inv head0 hh0
    ((List.range (pushes_since_switch n)).map
      (fun j : Nat => iterate_math Real.sin (main_loop Real.sin n).current_system
        (⟨0.1, 0.1, 0.1⟩ : Vec3 ℝ) (j + 1)))).2 i hi
  rw [← hring] at hinv
  simp only [List.length_map, List.length_range] at hinv
  constructor
  · intro hlt
    rw [hinv, if_pos hlt, List.getElem?_map,
      List.getElem?_range (by omega : pushes_since_switch n - 1 - i < pushes_since_switch n)]
    have e : pushes_since_switch n - 1 - i + 1 = pushes_since_switch n - i := by omega
    simp only [Option.map_some', Option.getD_some, e]
  · intro hge
    rw [hinv, if_neg (by omega)]

/-- C11. On every trail that `main` builds (over the reals), the zero-point skip of the
render loop drops exactly the never-written slots: after `n` loop iterations the slot of
age `i` is skipped if and only if it holds the zero vector, which is the case exactly for
the ages not below the number of pushes since the last `memset`; a written slot holds an
orbit point, whose `x` is never 0, and is projected and offered to the compositor. -/
theorem skip_drops_exactly_unwritten (n : Nat) (hn : n < 2 ^ 31) (i : Nat) (hi : i < 4000) :
    ((∀ (proj : Vec3 ℝ → Int × Int) (width height : Int) (b : Buffers),
          render_point proj width height (main_loop Real.sin n).ring.trail
            (main_loop Real.sin n).ring.head b (i : Int) = b)
        ↔ (main_loop Real.sin n).ring.trail
            (read_idx (main_loop Real.sin n).ring.head (i : Int)) = ⟨0, 0, 0⟩)
    ∧ ((main_loop Real.sin n).ring.trail
          (read_idx (main_loop Real.sin n).ring.head (i : Int)) = ⟨0, 0, 0⟩
        ↔ pushes_since_switch n ≤ i)
    ∧ (i < pushes_since_switch n →
        (main_loop Real.sin n).ring.trail (read_idx (main_loop Real.sin n).ring.head (i : Int))
          = iterate_math Real.sin (main_loop Real.sin n).current_system
              (⟨0.1, 0.1, 0.1⟩ : Vec3 ℝ) (pushes_since_switch n - i))
    ∧ ((main_loop Real.sin n).ring.trail
          (read_idx (main_loop Real.sin n).ring.head (i : Int)) ≠ ⟨0, 0, 0⟩ →
        ∀ (proj : Vec3 ℝ → Int × Int) (width height : Int) (b : Buffers),
          in_grid width height
            (proj ((main_loop Real.sin n).ring.trail
              (read_idx (main_loop Real.sin n).ring.head (i : Int)))).2
            (proj ((main_loop Real.sin n).ring.trail
              (read_idx (main_loop Real.sin n).ring.head (i : Int)))).1 →
          (i : Int) < b.out_ages
            (proj ((main_loop Real.sin n).ring.trail
              (read_idx (main_loop Real.sin n).ring.head (i : Int)))).2
            (proj ((main_loop Real.sin n).ring.trail
              (read_idx (main_loop Real.sin n).ring.head (i : Int)))).1 →
          (render_point proj width height (main_loop Real.sin n).ring.trail
              (main_loop Real.sin n).ring.head b (i : Int)).out_ages
              (proj ((main_loop Real.sin n).ring.trail
                (read_idx (main_loop Real.sin n).ring.head (i : Int)))).2
              (proj ((main_loop Real.sin n).ring.trail
                (read_idx (main_loop Real.sin n).ring.head (i : Int)))).1 = (i : Int)
          ∧ (render_point proj width height (main_loop Real.sin n).ring.trail
              (main_loop Real.sin n).ring.head b (i : Int)).out_chars
              (proj ((main_loop Real.sin n).ring.trail
                (read_idx (main_loop Real.sin n).ring.head (i : Int)))).2
              (proj ((main_loop Real.sin n).ring.trail
                (read_idx (main_loop Real.sin n).ring.head (i : Int)))).1
            = get_density_char (i : Int)) := by
  have _ := hn
  obtain ⟨hwritten, hzero⟩ := loop_slot n i hi
  have hcs := (main_loop_inv n).2.1
  obtain ⟨hskip, _, hoffer⟩ := skip_iff_x_zero (main_loop Real.sin n).ring.trail
    (main_loop Real.sin n).ring.head (i : Int) ⟨by omega, by omega⟩
  have hx : i < pushes_since_switch n →
      ((main_loop Real.sin n).ring.trail
        (read_idx (main_loop Real.sin n).ring.head (i : Int))).x ≠ 0 := by
    intro hlt
    rw [hwritten hlt]
    exact orbit_x_ne_zero _ hcs _
  have hvec : (main_loop Real.sin n).ring.trail
      (read_idx (main_loop Real.sin n).ring.head (i : Int)) = ⟨0, 0, 0⟩
      ↔ pushes_since_switch n ≤ i := by
    constructor
    · intro h0
      by_contra hlt
      exact hx (by omega) (by rw [h0])
    · exact hzero
  refine ⟨?_, hvec, hwritten, ?_⟩
  · rw [hskip, hvec]
    constructor
    · intro h0
      by_contra hlt
      exact hx (by omega) h0
    · intro hge
      rw [hzero hge]
  · intro hne
    have hlt : i < pushes_since_switch n := by
      by_contra hge
      exact hne (hzero (by omega))
    exact hoffer (hx hlt)

/-- C11, at a concrete input: after the first iteration of the main loop the slot of age 0
is written and not the zero vector, and the slot of age 1 is still the zero vector. -/
theorem skip_drops_exactly_unwritten_witness :
    (1 < 2 ^ 31) ∧ (0 < 4000) ∧ (1 < 4000)
    ∧ (main_loop Real.sin 1).ring.trail (read_idx (main_loop Real.sin 1).ring.head 0)
        ≠ ⟨0, 0, 0⟩
    ∧ (main_loop Real.sin 1).ring.trail (read_idx (main_loop Real.sin 1).ring.head 1)
        = ⟨0, 0, 0⟩ := by
  refine ⟨by norm_num, by norm_num, by norm_num, ?_, ?_⟩
  · intro h
    have h0 := (skip_drops_exactly_unwritten 1 (by norm_num) 0 (by norm_num)).2.1.1 h
    exact absurd h0 (by decide)
  · exact (skip_drops_exactly_unwritten 1 (by norm_num) 1 (by norm_num)).2.1.2 (by decide)

end AttractorC

namespace AttractorC

/-- Length of a text built by appending one piece per list element, each of at most `c`
characters. -/
theorem foldl_append_length_le {β : Type} (f : β → String) (c : Nat)
    (hf : ∀ x, (f x).length ≤ c) (l : List β) (init : String) :
    (l.foldl (fun s x => s ++ f x) init).length ≤ init.length + l.length * c := by
  induction l generalizing init with
  | nil => simp
  | cons a l ih =>
    simp only [List.foldl_cons, List.length_cons]
    have h1 := ih (init ++ f a)
    rw [String.length_append] at h1
    have h2 := hf a
    have e : (l.length + 1) * c = l.length * c + c := by ring
    omega

/-- The decimal text of an `int` in `[0, 2^31)` has at most 10 digits. -/
theorem toString_int_length_le (n : Int) (h0 : 0 ≤ n) (h1 : n < 2 ^ 31) :
    (toString n).length ≤ 10 := by
  obtain ⟨m, rfl⟩ := Int.eq_ofNat_of_zero_le h0
  have hm : m < 10 ^ 10 := by
    have : (m : Int) < 2 ^ 31 := h1
    norm_num at this ⊢
    omega
  exact Nat.repr_length m 10 (by decide) hm

theorem header_text_length_le (current_system frame : Int) (h0 : 0 ≤ frame)
    (h1 : frame < 2 ^ 31) : (header_text current_system frame).length ≤ 74 := by
  have hd := toString_int_length_le frame h0 h1
  unfold header_text
  generalize toString frame = t at hd
  have e1 : (" \x1b[1;36m" : String).length = 8 := rfl
  have e2 : ("THOMAS" : String).length = 6 := rfl
  have e3 : ("LORENZ" : String).length = 6 := rfl
  have e4 : (" STRANGE ATTRACTOR \x1b[0m| Mode: " : String).length = 31 := rfl
  have e5 : ("sin(y)-bx" : String).length = 9 := rfl
  have e6 : ("standard" : String).length = 8 := rfl
  have e7 : (" | Pts: " : String).length = 8 := rfl
  have e8 : ("\r\n" : String).length = 2 := rfl
  split_ifs <;>
  · simp only [String.length_append, e1, e2, e3, e4, e5, e6, e7, e8]
    omega

theorem cell_text_length_le (b : Buffers) (y x : Int) : (cell_text b y x).length ≤ 20 := by
  unfold cell_text
  split_ifs with h
  · simp only [String.length_append, String.length_singleton]
    unfold get_glow_color
    split_ifs <;> decide
  · decide

theorem row_text_length_le (width : Int) (b : Buffers) (y : Int) :
    (row_text width b y).length ≤ width.toNat * 20 + 2 := by
  unfold row_text
  rw [String.length_append]
  have h := foldl_append_length_le (fun x : Nat => cell_text b y (x : Int)) 20
    (fun x => cell_text_length_le b y x) (List.range width.toNat) ""
  simp only [List.length_range] at h
  have e0 : ("" : String).length = 0 := rfl
  have e2 : ("\r\n" : String).length = 2 := rfl
  omega

/-- The frame text has at most `77 + (height - 2) * (20 * width + 2)` characters. -/
theorem build_frame_length_le (width height current_system frame : Int) (b : Buffers)
    (h0 : 0 ≤ frame) (h1 : frame < 2 ^ 31) :
    (build_frame width height current_system frame b).length
      ≤ 77 + (height - 2).toNat * (width.toNat * 20 + 2) := by
  unfold build_frame
  have h := foldl_append_length_le (fun k : Nat => row_text width b ((k : Int) + 1))
    (width.toNat * 20 + 2) (fun k => row_text_length_le width b _)
    (List.range (height - 2).toNat) ("\x1b[H" ++ header_text current_system frame)
  simp only [List.length_range, String.length_append] at h
  have hh := header_text_length_le current_system frame h0 h1
  have e3 : ("\x1b[H" : String).length = 3 := rfl
  omega

/-- Outside the 1 × 1 terminal the frame fits: for `width ≥ 1`, `height ≥ 1` with
`width * height ≥ 2` and `0 ≤ frame < 2^31` the bytes written stay within
`width * height * 64`. -/
theorem frame_bytes_le_of_two_cells (width height current_system frame : Int) (b : Buffers)
    (hw : 1 ≤ width) (hh : 1 ≤ height) (hwh : 2 ≤ width * height)
    (h0 : 0 ≤ frame) (h1 : frame < 2 ^ 31) :
    (frame_bytes width height current_system frame b : Int) ≤ frame_buf_size width height := by
  have hlen := build_frame_length_le width height current_system frame b h0 h1
  unfold frame_bytes frame_buf_size
  obtain ⟨w, rfl⟩ := Int.eq_ofNat_of_zero_le (by omega : 0 ≤ width)
  have hcast : (((build_frame (w : Int) height current_system frame b).length + 1 : Nat) : Int)
      ≤ ((78 + (height - 2).toNat * (w * 20 + 2) : Nat) : Int) := by
    have : (build_frame (w : Int) height current_system frame b).length + 1
        ≤ 78 + (height - 2).toNat * (w * 20 + 2) := by
      simp only [Int.toNat_ofNat] at hlen
      omega
    exact_mod_cast this
  refine le_trans hcast ?_
  have hw1 : (1 : Int) ≤ (w : Int) := hw
  by_cases h2 : height ≤ 2
  · have e : (height - 2).toNat = 0 := by omega
    rw [e]
    push_cast
    nlinarith
  · have e : (((height - 2).toNat : Nat) : Int) = height - 2 := by omega
    push_cast
    rw [e]
    nlinarith

/-- C12 fails on a 1 × 1 terminal: at frame 0, which runs with `current_system == 1`, the
frame builder writes the 3 bytes of the cursor-home sequence, the 64 bytes of the header
line and the terminating NUL, 68 bytes in all, into the buffer of `1 * 1 * 64 = 64` bytes,
whatever the buffers `out_chars` and `out_ages` hold. -/
theorem frame_buffer_overflow_1x1 (b : Buffers) :
    frame_bytes 1 1 1 0 b = 68 ∧ frame_buf_size 1 1 = 64
    ∧ ¬ ((frame_bytes 1 1 1 0 b : Int) ≤ frame_buf_size 1 1) := by
  have h1 : frame_bytes 1 1 1 0 b = 68 := rfl
  have h2 : frame_buf_size 1 1 = 64 := rfl
  refine ⟨h1, h2, ?_⟩
  rw [h1, h2]
  decide

end AttractorC
